import Mathlib

/-!
Verification of the Round-Robin dispatcher (`src/dispatcher.c`, converged
draft at lines 250-551, loader at lines 323-368, statistics at lines
401-422) and of the worker program (`src/jobprog.c`).

The embedding is shallow: the C linked-list queues become Lean lists
(head of the list = head of the queue), the per-tick body of the main
loop becomes a pure state-transition function, and the `while` loop
becomes fuel-indexed recursion.  OS-level effects (fork/exec, signals,
`sleep`, stdout) are outside the embedding; the `pid` field and the
printf calls of the C code are dropped, everything that feeds the Trace
(Gantt log), the completion times and the statistics is kept.
All C `int` values are modelled as `Int`; the dispatcher timer `t` only
ever holds 0,1,2,... and doubles as the Gantt index, so it is a `Nat`
(compared with arrivals through the coercion `(t : Int)`).
-/

/-- Job life-cycle states, from `typedef enum ... state_t`. -/
inductive JState where
  | notStarted
  | running
  | suspended
  | terminated
  deriving Repr, DecidableEq

/-- One job record (`struct job`), minus the OS `pid` handle and the
intrusive `next` pointer (list membership replaces the latter). -/
structure Job where
  id : Int
  arrival : Int
  total_cpu : Int
  remaining : Int
  state : JState
  deriving Repr, DecidableEq

/-- The state carried across iterations of the main dispatcher loop:
the input (arrival) queue, the RR (ready) queue, the `current` slot,
the timer `t`, the Gantt trace (entry `-1` = idle) and the recorded
completion times (`completion[id-1] = t` becomes the pair `(id, t)`). -/
structure DSt where
  input : List Job
  rq : List Job
  current : Option Job
  t : Nat
  gantt : List Int
  completions : List (Int × Nat)
  deriving Repr, DecidableEq

/-- `pop_input_if_arrival_le` repeated until it returns NULL
(`move_arrivals_to_rr`): the popped prefix of the input queue. -/
def admittedAt (t : Nat) (input : List Job) : List Job :=
  input.takeWhile (fun j => decide (j.arrival ≤ (t : Int)))

/-- What remains of the input queue after `move_arrivals_to_rr`. -/
def inputAfter (t : Nat) (input : List Job) : List Job :=
  input.dropWhile (fun j => decide (j.arrival ≤ (t : Int)))

/-- Step 4.i of the loop body: `move_arrivals_to_rr(t)` — pop every due
job off the input queue head and `enqueue_rr` it, in order. -/
def move_arrivals_to_rr (st : DSt) : DSt :=
  { st with
    input := inputAfter st.t st.input
    rq := st.rq ++ admittedAt st.t st.input }

/-- Step 4.ii: if a job is current, decrement its remaining time; on
`remaining <= 0` record its completion at the current `t` and clear the
slot; otherwise, if the RR queue is non-empty, suspend the (already
decremented) job and re-enqueue it at the tail. -/
def runCurrent (st : DSt) : DSt :=
  match st.current with
  | none => st
  | some c =>
    let c' : Job := { c with remaining := c.remaining - 1 }
    if c'.remaining ≤ 0 then
      { st with current := none
                completions := st.completions ++ [(c.id, st.t)] }
    else if st.rq ≠ [] then
      { st with current := none
                rq := st.rq ++ [{ c' with state := JState.suspended }] }
    else
      { st with current := some c' }

/-- The start-or-resume taken in step 4.iii (lines 501-519): a
NOT_STARTED job is forked and a SUSPENDED one gets SIGCONT; both end up
RUNNING; any other state is left alone (line 521 makes the job
`current` regardless of which branch ran). -/
def startOrResume (j : Job) : Job :=
  match j.state with
  | JState.notStarted => { j with state := JState.running }
  | JState.suspended => { j with state := JState.running }
  | _ => j

/-- Step 4.iii: if no job is current and the RR queue is non-empty,
`dequeue_rr` and start (NOT_STARTED) or resume (SUSPENDED) it; in
either case the popped job becomes `current`. -/
def dispatch (st : DSt) : DSt :=
  match st.current, st.rq with
  | none, j :: rest => { st with current := some (startOrResume j), rq := rest }
  | _, _ => st

/-- `any_jobs_left()`: input or RR queue non-empty. -/
def any_jobs_left (st : DSt) : Bool :=
  !st.input.isEmpty || !st.rq.isEmpty

/-- Negation of the loop guard `any_jobs_left() || current != NULL`,
which is also the in-loop break condition. -/
def allDone (st : DSt) : Bool :=
  st.input.isEmpty && st.rq.isEmpty && st.current.isNone

/-- The body of one loop iteration up to (and excluding) the Gantt
recording: admission, run/complete/preempt, dispatch. -/
def tickBody (st : DSt) : DSt :=
  dispatch (runCurrent (move_arrivals_to_rr st))

/-- End of the iteration: record the Gantt entry
(`gantt[gantt_index++] = current ? current->id : -1`) and `t++`. -/
def recordTick (st : DSt) : DSt :=
  { st with
    gantt := st.gantt ++ [match st.current with | some c => c.id | none => -1]
    t := st.t + 1 }

/-- The main dispatcher loop (lines 460-539), as fuel-indexed
recursion: exit when the guard fails, run the body, break before
recording when everything is empty, otherwise record and continue.
`none` means the fuel ran out (never happens for adequate fuel). -/
def loopRun : Nat → DSt → Option DSt
  | 0, _ => none
  | fuel + 1, st =>
    if allDone st then some st
    else
      let st1 := tickBody st
      if allDone st1 then some st1
      else loopRun fuel (recordTick st1)

/-- The state on entry to the loop: loaded jobs in the input queue,
everything else empty, `t = 0`. -/
def initSt (jobs : List Job) : DSt :=
  { input := jobs, rq := [], current := none, t := 0, gantt := [], completions := [] }

/-- Build a loaded, not-yet-started job record the way `load_jobs`
does: `remaining` initialized to the service time, state NOT_STARTED. -/
def mkJob (id arrival service : Int) : Job :=
  { id := id, arrival := arrival, total_cpu := service,
    remaining := service, state := JState.notStarted }

/-! ## CSV loader (`load_jobs`, converged draft, lines 323-368)

A file line is modelled by the outcome of the C tests and `sscanf`
calls on it: whether `line[0]=='#' || strlen(line)<3` holds, and the
maximal sequence of integer fields that `sscanf(line, "%d,%d,%d,...")`
extracts.  Both `sscanf` calls of `load_jobs` use formats that agree on
their first three conversions, so on a given line the 8-field call
parses `min fields.length 8` values and the 3-field call
`min fields.length 3`. -/

/-- One line of the jobs file, as the loader observes it. -/
structure RawLine where
  hashOrShort : Bool
  fields : List Int
  deriving Repr, DecidableEq

/-- `load_jobs` (lines 331-366): skip comment/short lines; if at least
3 integer fields parse, build a job from fields 0 (arrival) and 2
(service) with the sequential `job_counter` id; otherwise retry with a
3-field parse and, on exactly 3 fields, use field 1 as the id. -/
def load_jobs (lines : List RawLine) (job_counter : Int) : List Job :=
  match lines with
  | [] => []
  | l :: ls =>
    if l.hashOrShort then load_jobs ls job_counter
    else if min l.fields.length 8 ≥ 3 then
      mkJob job_counter (l.fields.getD 0 0) (l.fields.getD 2 0)
        :: load_jobs ls (job_counter + 1)
    else if min l.fields.length 3 = 3 then
      mkJob (l.fields.getD 1 0) (l.fields.getD 0 0) (l.fields.getD 2 0)
        :: load_jobs ls job_counter
    else
      load_jobs ls job_counter

/-- A line that survives the comment/length filter and yields at least
three integer fields, i.e. one that produces a job. -/
def wellFormed (l : RawLine) : Bool :=
  !l.hashOrShort && decide (3 ≤ l.fields.length)

/-! ## Statistics reporter (`print_statistics`, lines 401-422)

The C function walks the three arrays with a row counter `i` and two
running accumulators `total_ta`, `total_wt`, then divides by `n`.  The
C accumulators are `float`; the model uses exact rationals, which keeps
the arithmetic content (sum of the per-row values divided by `n`). -/

/-- One printed row of the statistics table. -/
structure StatRow where
  jobId : Int
  arrival : Int
  burst : Int
  completion : Int
  turnaround : Int
  waiting : Int
  deriving Repr, DecidableEq

/-- The per-row loop of `print_statistics`: row `i` prints id `i+1`,
`ta = completion[i] - arrivals[i]`, `wt = ta - bursts[i]`, and the
accumulators collect the totals. -/
def statRowsAux : Int → Int → Int → List Int → List Int → List Int →
    List StatRow × Int × Int
  | _, total_ta, total_wt, [], _, _ => ([], total_ta, total_wt)
  | _, total_ta, total_wt, _, [], _ => ([], total_ta, total_wt)
  | _, total_ta, total_wt, _, _, [] => ([], total_ta, total_wt)
  | i, total_ta, total_wt, c :: cs, a :: as_, b :: bs =>
    let ta := c - a
    let wt := ta - b
    let rest := statRowsAux (i + 1) (total_ta + ta) (total_wt + wt) cs as_ bs
    (⟨i + 1, a, b, c, ta, wt⟩ :: rest.1, rest.2)

/-- `print_statistics(completion, arrivals, bursts, n)`: the table rows
plus the two printed averages. -/
def print_statistics (completion arrivals bursts : List Int) (n : Nat) :
    List StatRow × ℚ × ℚ :=
  let r := statRowsAux 0 0 0 completion arrivals bursts
  (r.1, (r.2.1 : ℚ) / (n : ℚ), (r.2.2 : ℚ) / (n : ℚ))

/-! ## Worker program (`src/jobprog.c`)

Two worker `main`s appear in the file.  The signal-driven one
(lines 24-59) installs a SIGINT handler that clears `keep_running` and
loops `while (keep_running) sleep(1)`; SIGTSTP/SIGCONT keep their
default suspend/resume behaviour and touch nothing.  The legacy one
(lines 74-101) runs `for (i = 0; i < service_time; ++i) sleep(1)` and
then returns on its own.  Both are modelled as transition systems over
the events that can reach the process. -/

/-- Events a worker process can experience: one pass through its work
loop (a `sleep(1)` and the loop test), or delivery of a signal. -/
inductive WEvent where
  | tick
  | sigint
  | sigtstp
  | sigcont
  deriving Repr, DecidableEq

/-- State of the signal-driven worker: the `keep_running` flag, whether
the process is currently stopped by SIGTSTP, and whether `main` has
fallen out of the loop and returned. -/
structure WSt where
  keep_running : Bool
  stopped : Bool
  exited : Bool
  deriving Repr, DecidableEq

/-- State at `while (keep_running)` entry. -/
def workerInit : WSt := { keep_running := true, stopped := false, exited := false }

/-- One event of the signal-driven worker: SIGINT runs the handler
(`keep_running = 0`), SIGTSTP/SIGCONT stop/continue the process, and a
loop pass exits the loop (and then `main` returns) exactly when
`keep_running` is false.  Nothing happens after exit or while
stopped (a stopped process does not execute loop passes). -/
def workerStep (s : WSt) (e : WEvent) : WSt :=
  if s.exited then s
  else
    match e with
    | WEvent.sigint => { s with keep_running := false }
    | WEvent.sigtstp => { s with stopped := true }
    | WEvent.sigcont => { s with stopped := false }
    | WEvent.tick =>
      if s.stopped then s
      else if s.keep_running then s
      else { s with exited := true }

/-- The signal-driven worker after a finite sequence of events. -/
def workerRun (evs : List WEvent) : WSt := evs.foldl workerStep workerInit

/-- State of the legacy worker (lines 74-101): loop counter `i` and
whether `main` has returned.  `service_time` is its command-line
argument. -/
structure LSt where
  i : Int
  exited : Bool
  deriving Repr, DecidableEq

/-- One event of the legacy worker: it ignores SIGINT-level control in
the model (it installs no handler; the relevant behaviour for the claim
is what it does with *no* stop request), and each loop pass advances
`for (i = 0; i < service_time; ++i) sleep(1)`; when the loop is done
`main` prints "finished normally" and returns.  A `service_time <= 0`
argument returns immediately (line 80). -/
def legacyStep (service_time : Int) (s : LSt) (e : WEvent) : LSt :=
  if s.exited then s
  else
    match e with
    | WEvent.tick =>
      if s.i < service_time then { s with i := s.i + 1 }
      else { s with exited := true }
    | _ => s

/-- The legacy worker after a finite sequence of events, starting at
the `if (service_time <= 0) return 0;` test. -/
def legacyRun (service_time : Int) (evs : List WEvent) : LSt :=
  if service_time ≤ 0 then { i := 0, exited := true }
  else evs.foldl (legacyStep service_time) { i := 0, exited := false }

/-! ## Reference model of the spec §4.5 per-tick algorithm

These definitions follow the *spec's words* (§4.5 steps 1-9), not the C
source; they exist to compare the code's Trace with the documented
algorithm (claim about refinement).  Step 8 (unexpected worker exit) is
a no-op here: no worker exits unexpectedly in the model. -/

/-- State of the §4.5 loop: current tick, assigned slot, Arrival Queue,
Ready Queue, Trace (−1 = idle) and completion times. -/
structure SpecSt where
  arrQ : List Job
  readyQ : List Job
  assigned : Option Job
  tick : Nat
  trace : List Int
  completions : List (Int × Nat)
  deriving Repr, DecidableEq

/-- §4.5 steps 1-9 for one tick, in the spec's order: admission;
preemption-on-arrival (assigned ∧ something admitted ⇒ pause and
re-enqueue at the tail before any CPU time is charged); dispatch;
trace recording; service accounting; completion check (completion tick
= current tick + 1); preemption-on-contention. -/
def specTick (st : SpecSt) : SpecSt :=
  -- step 1: admission
  let admitted := st.arrQ.filter (fun j => decide (j.arrival ≤ (st.tick : Int)))
  let arrQ' := st.arrQ.filter (fun j => !decide (j.arrival ≤ (st.tick : Int)))
  let readyQ1 := st.readyQ ++ admitted
  -- step 2: preemption-on-arrival
  let (readyQ2, assigned2) :=
    match st.assigned with
    | some c =>
      if admitted ≠ [] then
        (readyQ1 ++ [{ c with state := JState.suspended }], (none : Option Job))
      else (readyQ1, some c)
    | none => (readyQ1, none)
  -- step 3: dispatch
  let (readyQ3, assigned3) :=
    match assigned2, readyQ2 with
    | none, j :: rest => (rest, some { j with state := JState.running })
    | a, q => (q, a)
  -- step 4: trace recording
  let trace4 := st.trace ++ [match assigned3 with | some c => c.id | none => -1]
  -- step 5: service accounting
  let assigned5 := assigned3.map (fun c => { c with remaining := c.remaining - 1 })
  -- steps 6-7: completion check, else preemption-on-contention
  let (readyQ6, assigned6, completions6) :=
    match assigned5 with
    | some c =>
      if c.remaining = 0 then
        (readyQ3, (none : Option Job), st.completions ++ [(c.id, st.tick + 1)])
      else if readyQ3 ≠ [] then
        (readyQ3 ++ [{ c with state := JState.suspended }], none, st.completions)
      else (readyQ3, some c, st.completions)
    | none => (readyQ3, none, st.completions)
  -- step 9: advance the tick
  { arrQ := arrQ', readyQ := readyQ6, assigned := assigned6,
    tick := st.tick + 1, trace := trace4, completions := completions6 }

/-- The §4.5 loop: run `specTick` until the Arrival Queue, Ready Queue
and assigned slot are all empty (step 9's termination condition). -/
def specRun : Nat → SpecSt → Option SpecSt
  | 0, _ => none
  | fuel + 1, st =>
    if st.arrQ.isEmpty && st.readyQ.isEmpty && st.assigned.isNone then some st
    else specRun fuel (specTick st)

/-- Initial state of the §4.5 loop. -/
def specInit (jobs : List Job) : SpecSt :=
  { arrQ := jobs, readyQ := [], assigned := none, tick := 0, trace := [],
    completions := [] }

/-- The three-job scenario of spec §8: Job1(arrival 0, service 3),
Job2(arrival 1, service 2), Job3(arrival 3, service 1). -/
def scenarioJobs : List Job := [mkJob 1 0 3, mkJob 2 1 2, mkJob 3 3 1]

/-! ## Derived notions used by the theorems -/

/-- All jobs still owned by the loop: input queue, RR queue and the
`current` slot. -/
def liveJobs (st : DSt) : List Job :=
  st.input ++ st.rq ++ st.current.toList

/-- Total remaining service over a job list, clamped at 0. -/
def sumRem (l : List Job) : Nat :=
  (l.map (fun j => j.remaining.toNat)).sum

/-- How far in the future the arrivals in `l` still are, seen from
tick `t`. -/
def slackOf (t : Nat) (l : List Job) : Nat :=
  (l.map (fun j => (j.arrival - (t : Int)).toNat)).sum

/-- How far in the future the queued arrivals still are. -/
def slackAt (st : DSt) : Nat := slackOf st.t st.input

/-- Termination measure for the dispatcher loop: remaining work and
pending-arrival slack, weighted so that a dispatch-only iteration
(which only fills the `current` slot) still decreases it. -/
def dispMeasure (st : DSt) : Nat :=
  2 * (sumRem (liveJobs st) + slackAt st) + (if st.current.isNone then 1 else 0)

/-- Fuel that provably suffices for `loopRun`. -/
def fuelBound (jobs : List Job) : Nat := dispMeasure (initSt jobs) + 1

/-- The jobs the admission step hands to the RR queue, tick by tick,
over a whole run (same recursion pattern as `loopRun`). -/
def loopAdmits : Nat → DSt → List Job
  | 0, _ => []
  | fuel + 1, st =>
    if allDone st then []
    else
      admittedAt st.t st.input ++
        (if allDone (tickBody st) then [] else loopAdmits fuel (recordTick (tickBody st)))

/-- The input queue is sorted ascending by arrival time (the documented
Arrival Queue invariant, spec §2/§3). -/
def sortedByArrival (jobs : List Job) : Prop :=
  jobs.Pairwise (fun a b => a.arrival ≤ b.arrival)

/-- Closed form of the loader's output: one job per surviving line,
with sequential ids from `counter` and arrival/service taken from
fields 0 and 2. -/
def loadedFrom (counter : Int) : List RawLine → List Job
  | [] => []
  | l :: ls => mkJob counter (l.fields.getD 0 0) (l.fields.getD 2 0) :: loadedFrom (counter + 1) ls

/-- Final state of the converged dispatcher on the §8 scenario. -/
def scenarioFinal : DSt :=
  { input := [], rq := [], current := none, t := 6,
    gantt := [1, 2, 1, 2, 3, 1], completions := [(2, 4), (3, 5), (1, 6)] }

/-- Two jobs for which a same-tick arrival meets an assigned job whose
service is about to run out: Job1(arrival 0, service 1),
Job2(arrival 1, service 1). -/
def c1Jobs : List Job := [mkJob 1 0 1, mkJob 2 1 1]

/-- The loop-head state at t = 1 of the run on `c1Jobs` (after one
iteration of the loop). -/
def c1AtTick1 : DSt := recordTick (tickBody (initSt c1Jobs))

/-- The loop-head state at t = 1 of the run on `scenarioJobs`. -/
def scenAtTick1 : DSt := recordTick (tickBody (initSt scenarioJobs))

/-- The loop-head state at t = 1 of the run on a single job with
service 2 (used to test the mid-run accounting invariant). -/
def oneJobAtTick1 : DSt := recordTick (tickBody (initSt [mkJob 1 0 2]))

/-- The loop-head invariant tying the Gantt trace, the completion
records and the live jobs together.  `jobs` is the loaded input list.
The key accounting fact reflects the code's lagged charging: a job's
count of Trace entries equals service-consumed so far, plus one *not
yet charged* entry when the job currently holds the CPU. -/
structure DInv (jobs : List Job) (st : DSt) : Prop where
  tlen : st.t = st.gantt.length
  curLast : ∀ c, st.current = some c →
    ∃ tp, st.t = tp + 1 ∧ st.gantt.get? tp = some c.id
  liveNodup : ((liveJobs st).map Job.id).Nodup
  livePos : ∀ j ∈ liveJobs st, 1 ≤ j.id ∧ 1 ≤ j.remaining
  account : ∀ j ∈ jobs,
    (∃ j', j' ∈ liveJobs st ∧ j'.id = j.id ∧
      (st.gantt.count j.id : Int) =
        j.total_cpu - j'.remaining + (if st.current = some j' then 1 else 0))
    ∨ (j.id ∈ st.completions.map Prod.fst ∧
        (st.gantt.count j.id : Int) = j.total_cpu ∧
        ∀ j' ∈ liveJobs st, j'.id ≠ j.id)
  comps : ∀ p ∈ st.completions, 1 ≤ p.2 ∧ p.2 ≤ st.t ∧
    st.gantt.get? (p.2 - 1) = some p.1 ∧
    (∀ k, p.2 ≤ k → st.gantt.get? k ≠ some p.1) ∧
    (∀ j' ∈ liveJobs st, j'.id ≠ p.1) ∧ 1 ≤ p.1

/-- What the accounting invariant yields once the loop has drained:
every input job's id fills exactly `total_cpu` Trace slots, and every
recorded completion tick is one past the last Trace entry of that
job's id. -/
def FinalFacts (jobs : List Job) (st : DSt) : Prop :=
  (∀ j ∈ jobs, (st.gantt.count j.id : Int) = j.total_cpu ∧
      j.id ∈ st.completions.map Prod.fst)
  ∧ ∀ p ∈ st.completions, 1 ≤ p.2 ∧ st.gantt.get? (p.2 - 1) = some p.1 ∧
      ∀ k, p.2 ≤ k → st.gantt.get? k ≠ some p.1

/-! ## Helper lemmas -/

lemma getLast?_append_single {α : Type} (l : List α) (a : α) :
    (l ++ [a]).getLast? = some a := by
  rw [List.getLast?_append_cons]
  rfl

lemma startOrResume_id (j : Job) : (startOrResume j).id = j.id := by
  unfold startOrResume
  cases j.state <;> rfl

lemma startOrResume_remaining (j : Job) : (startOrResume j).remaining = j.remaining := by
  unfold startOrResume
  cases j.state <;> rfl

/-- Inside one body, the input queue is only consumed by admission and
the timer and Gantt trace are untouched. -/
lemma tickBody_fields (st : DSt) :
    (tickBody st).input = inputAfter st.t st.input ∧ (tickBody st).t = st.t ∧
      (tickBody st).gantt = st.gantt := by
  obtain ⟨inp, rq, cur, t, g, comps⟩ := st
  unfold tickBody move_arrivals_to_rr runCurrent dispatch
  cases cur <;> dsimp only <;> (repeat' split) <;> simp_all

lemma tickBody_input (st : DSt) :
    (tickBody st).input = inputAfter st.t st.input := (tickBody_fields st).1

lemma tickBody_t (st : DSt) : (tickBody st).t = st.t := (tickBody_fields st).2.1

lemma tickBody_gantt (st : DSt) : (tickBody st).gantt = st.gantt :=
  (tickBody_fields st).2.2

/-- `loopRun` only ever answers with a fully drained state. -/
lemma loopRun_allDone : ∀ (fuel : Nat) (st st' : DSt),
    loopRun fuel st = some st' → allDone st' = true := by
  intro fuel
  induction fuel with
  | zero => intro st st' h; simp [loopRun] at h
  | succ f ih =>
    intro st st' h
    rw [loopRun] at h
    by_cases h0 : allDone st
    · rw [if_pos h0] at h
      cases h
      exact h0
    · rw [if_neg h0] at h
      by_cases h1 : allDone (tickBody st)
      · rw [if_pos h1] at h
        cases h
        exact h1
      · rw [if_neg h1] at h
        exact ih _ _ h

/-! ## Claim C2 — Trace of the §8 scenario vs. the §4.5 reference run -/

/-- **C2, counterexample.** On Job1(0,3), Job2(1,2), Job3(3,1) the
converged dispatcher's Gantt trace is [1,2,1,2,3,1] while a reference
run of the spec §4.5 per-tick algorithm produces [1,2,1,2,1,3]: the two
traces differ (at ticks 4 and 5), so the dispatcher's Trace does not
equal the reference Trace. -/
theorem scenario_trace_differs_from_reference :
    (loopRun 30 (initSt scenarioJobs)).map DSt.gantt = some [1, 2, 1, 2, 3, 1]
    ∧ (specRun 30 (specInit scenarioJobs)).map SpecSt.trace = some [1, 2, 1, 2, 1, 3]
    ∧ (loopRun 30 (initSt scenarioJobs)).map DSt.gantt ≠
        (specRun 30 (specInit scenarioJobs)).map SpecSt.trace := by
  refine ⟨rfl, rfl, ?_⟩
  decide

/-- **C2, amended.** The two traces agree on ticks 0-3 — in particular
tick 0 records Job1 and tick 1 records Job2, as the corrected spec
expects — and disagree exactly on ticks 4 and 5, where the dispatcher
runs Job3 then Job1 and the §4.5 reference run Job1 then Job3 (the code
re-enqueues a job preempted at the quantum boundary *after* the next
tick's admissions, the reference *before* them). -/
theorem scenario_trace_agrees_on_first_four_ticks :
    ((loopRun 30 (initSt scenarioJobs)).map fun st => st.gantt.take 4) =
        ((specRun 30 (specInit scenarioJobs)).map fun st => st.trace.take 4)
    ∧ ((loopRun 30 (initSt scenarioJobs)).map fun st => st.gantt.take 2) = some [1, 2]
    ∧ (loopRun 30 (initSt scenarioJobs)).map DSt.gantt = some [1, 2, 1, 2, 3, 1]
    ∧ (specRun 30 (specInit scenarioJobs)).map SpecSt.trace = some [1, 2, 1, 2, 1, 3] := by
  exact ⟨rfl, rfl, rfl, rfl⟩

/-! ## Claim C6 — the worker must not self-terminate -/

/-- **C6.** The legacy worker `main` (jobprog.c lines 74-101), given
the service-time hint 1 and never receiving any stop request, exits on
its own after exhausting the hint; the signal-driven worker `main`
(lines 24-59) on the same event sequence keeps running.  This theorem
evaluates the code at the failing input of the code_bug. -/
theorem legacy_worker_self_terminates :
    legacyRun 1 [WEvent.tick, WEvent.tick] = { i := 1, exited := true }
    ∧ [WEvent.tick, WEvent.tick].contains WEvent.sigint = false
    ∧ workerRun [WEvent.tick, WEvent.tick] =
        { keep_running := true, stopped := false, exited := false } := by
  decide

/-- The signal-driven worker (jobprog.c lines 24-59) satisfies the
contract: after any finite event history containing no SIGINT, its
`keep_running` flag is still set and `main` has not returned. -/
lemma workerRun_no_sigint_keeps_running (evs : List WEvent)
    (h : WEvent.sigint ∉ evs) :
    (workerRun evs).keep_running = true ∧ (workerRun evs).exited = false := by
  suffices H : ∀ (evs : List WEvent) (s : WSt), WEvent.sigint ∉ evs →
      s.keep_running = true → s.exited = false →
      (evs.foldl workerStep s).keep_running = true ∧ (evs.foldl workerStep s).exited = false by
    exact H evs workerInit h rfl rfl
  intro evs
  induction evs with
  | nil => intro s _ h1 h2; exact ⟨h1, h2⟩
  | cons e es ih =>
    intro s hmem h1 h2
    have he : e ≠ WEvent.sigint := fun he => hmem (he ▸ List.mem_cons_self e es)
    have hes : WEvent.sigint ∉ es := fun hm => hmem (List.mem_cons_of_mem e hm)
    refine ih (workerStep s e) hes ?_ ?_
    · unfold workerStep
      cases e with
      | sigint => exact absurd rfl he
      | tick => simp [h2, h1]
      | sigtstp => simp [h2, h1]
      | sigcont => simp [h2, h1]
    · unfold workerStep
      cases e with
      | sigint => exact absurd rfl he
      | tick => simp [h2, h1]
      | sigtstp => simp [h2]
      | sigcont => simp [h2]

/-! ## Claim C1 — preemption on same-tick arrival -/

/-- **C1, counterexample.** Run Job1(arrival 0, service 1) and
Job2(arrival 1, service 1).  At the loop head of tick 1 Job1 is the
assigned job and the admission step admits Job2 (non-empty admission),
yet Job1 is *not* paused and re-enqueued at the Ready Queue tail: its
remaining time is decremented first, reaches 0, and the job is
completed (completion tick 1) — after the body the Ready Queue is empty
and Job1 appears in the completion list, not in the queue. -/
theorem same_tick_arrival_without_requeue :
    c1AtTick1.current = some { id := 1, arrival := 0, total_cpu := 1,
                               remaining := 1, state := JState.running }
    ∧ admittedAt c1AtTick1.t c1AtTick1.input = [mkJob 2 1 1]
    ∧ (tickBody c1AtTick1).rq = []
    ∧ (tickBody c1AtTick1).completions = [(1, 1)]
    ∧ loopRun 10 (initSt c1Jobs) =
        some { input := [], rq := [], current := none, t := 2,
               gantt := [1, 2], completions := [(1, 1), (2, 2)] } := by
  decide

/-- **C1, amended.** At any tick at which a job is assigned, at least
one job is admitted, and the assigned job still has service left after
paying for the tick it just ran (`1 < remaining`), the code preempts
it: it is re-enqueued at the Ready Queue tail carrying exactly one
decrement (the charge for the previous tick's Trace entry), the tick's
CPU goes to a different job, and the tick's Trace entry records that
job — so the bumped job is charged nothing for the arrival tick.  (The
id-freshness hypothesis rules out duplicate job ids.) -/
theorem preempt_on_arrival_with_service_left (st : DSt) (c : Job)
    (hc : st.current = some c)
    (hadm : admittedAt st.t st.input ≠ [])
    (hrem : 1 < c.remaining)
    (hid : c.id ∉ (st.rq ++ admittedAt st.t st.input).map Job.id) :
    (tickBody st).rq.getLast? =
        some { c with remaining := c.remaining - 1, state := JState.suspended }
    ∧ (tickBody st).current.isSome = true
    ∧ (tickBody st).current.map Job.id ≠ some c.id
    ∧ (recordTick (tickBody st)).gantt.getLast? = (tickBody st).current.map Job.id := by
  have hA : st.rq ++ admittedAt st.t st.input ≠ [] := by
    intro h
    rcases List.append_eq_nil.mp h with ⟨-, h2⟩
    exact hadm h2
  obtain ⟨a, A', hAeq⟩ := List.exists_cons_of_ne_nil hA
  have haid : a.id ≠ c.id := by
    intro h
    apply hid
    rw [← h]
    exact List.mem_map_of_mem Job.id (hAeq ▸ List.mem_cons_self a A')
  have hbody : tickBody st =
      { input := inputAfter st.t st.input,
        rq := A' ++ [{ c with remaining := c.remaining - 1, state := JState.suspended }],
        current := some (startOrResume a),
        t := st.t, gantt := st.gantt, completions := st.completions } := by
    unfold tickBody move_arrivals_to_rr runCurrent dispatch
    simp only [hc]
    rw [if_neg (by omega), if_pos hA, hAeq]
    rfl
  rw [hbody]
  refine ⟨getLast?_append_single _ _, rfl, ?_, ?_⟩
  · intro h
    have h2 : (startOrResume a).id = c.id := Option.some.inj h
    rw [startOrResume_id] at h2
    exact haid h2
  · unfold recordTick
    simp only [getLast?_append_single]
    rfl

/-- Witness for the amended C1 theorem: the loop-head state at tick 1
of the §8 scenario (Job1 assigned with remaining 3, Job2 just due). -/
theorem preempt_on_arrival_with_service_left_witness :
    (tickBody scenAtTick1).rq.getLast? =
        some { id := 1, arrival := 0, total_cpu := 3, remaining := 2,
               state := JState.suspended }
    ∧ (tickBody scenAtTick1).current.isSome = true
    ∧ (tickBody scenAtTick1).current.map Job.id ≠ some 1
    ∧ (recordTick (tickBody scenAtTick1)).gantt.getLast? =
        (tickBody scenAtTick1).current.map Job.id := by
  have h := preempt_on_arrival_with_service_left scenAtTick1
      { id := 1, arrival := 0, total_cpu := 3, remaining := 3, state := JState.running }
      (by decide) (by decide) (by decide) (by decide)
  exact ⟨h.1.trans (by decide), h.2.1, h.2.2.1, h.2.2.2⟩

/-! ## Claims C9/C10 — loader behaviour -/

lemma loadedFrom_length : ∀ (ls : List RawLine) (counter : Int),
    (loadedFrom counter ls).length = ls.length := by
  intro ls
  induction ls with
  | nil => intro c; rfl
  | cons l ls ih => intro c; simp [loadedFrom, ih]

lemma loadedFrom_get? : ∀ (ls : List RawLine) (counter : Int) (k : Nat) (job : Job),
    (loadedFrom counter ls).get? k = some job → job.id = counter + (k : Int) := by
  intro ls
  induction ls with
  | nil => intro c k job h; simp [loadedFrom] at h
  | cons l ls ih =>
    intro c k job h
    cases k with
    | zero =>
      simp only [loadedFrom, List.get?] at h
      cases h
      simp [mkJob]
    | succ k =>
      simp only [loadedFrom, List.get?] at h
      have := ih (c + 1) k job h
      rw [this]
      push_cast
      ring

/-- The loader's output is exactly one job per surviving line, with
sequential ids: `load_jobs` equals the closed form `loadedFrom`. -/
lemma load_jobs_eq_loadedFrom : ∀ (lines : List RawLine) (counter : Int),
    load_jobs lines counter = loadedFrom counter (lines.filter wellFormed) := by
  intro lines
  induction lines with
  | nil => intro c; rfl
  | cons l ls ih =>
    intro c
    by_cases h1 : l.hashOrShort
    · have hw : wellFormed l = false := by simp [wellFormed, h1]
      simp only [load_jobs, if_pos h1, List.filter, hw]
      exact ih c
    · by_cases h2 : 3 ≤ l.fields.length
      · have hw : wellFormed l = true := by simp [wellFormed, h1, h2]
        simp only [load_jobs, if_neg h1, if_pos (show min l.fields.length 8 ≥ 3 by omega),
          List.filter, hw, loadedFrom]
        rw [ih (c + 1)]
      · have hw : wellFormed l = false := by
          simp only [wellFormed, Bool.and_eq_false_iff]
          right
          simpa using h2
        simp only [load_jobs, if_neg h1,
          if_neg (show ¬ min l.fields.length 8 ≥ 3 by omega),
          if_neg (show ¬ min l.fields.length 3 = 3 by omega),
          List.filter, hw]
        exact ih c

/-- **C9.** A record line from which fewer than three integer fields
parse produces no job and leaves the rest of the batch untouched: the
loader's output on any file containing it equals its output on the same
file without it, and in general the loader emits exactly one job per
well-formed line. -/
theorem malformed_line_skipped :
    (∀ (pre post : List RawLine) (bad : RawLine) (counter : Int),
        bad.fields.length < 3 →
        load_jobs (pre ++ bad :: post) counter = load_jobs (pre ++ post) counter)
    ∧ (∀ (lines : List RawLine) (counter : Int),
        (load_jobs lines counter).length = (lines.filter wellFormed).length) := by
  constructor
  · intro pre
    induction pre with
    | nil =>
      intro post bad c hlen
      by_cases h1 : bad.hashOrShort
      · simp only [List.nil_append, load_jobs, if_pos h1]
      · simp only [List.nil_append, load_jobs, if_neg h1,
          if_neg (show ¬ min bad.fields.length 8 ≥ 3 by omega),
          if_neg (show ¬ min bad.fields.length 3 = 3 by omega)]
    | cons p pre ih =>
      intro post bad c hlen
      simp only [List.cons_append, load_jobs]
      split_ifs <;> simp [ih post bad _ hlen]
  · intro lines c
    rw [load_jobs_eq_loadedFrom, loadedFrom_length]

/-- Witness for C9: dropping the 2-field line [2,7] from a batch
leaves the two well-formed records loaded unchanged. -/
theorem malformed_line_skipped_witness :
    load_jobs ([⟨false, [0, 9, 5]⟩] ++ ⟨false, [2, 7]⟩ :: [⟨false, [4, 3, 2, 9, 9]⟩]) 1 =
      load_jobs ([⟨false, [0, 9, 5]⟩] ++ [⟨false, [4, 3, 2, 9, 9]⟩]) 1 :=
  malformed_line_skipped.1 [⟨false, [0, 9, 5]⟩] [⟨false, [4, 3, 2, 9, 9]⟩]
    ⟨false, [2, 7]⟩ 1 (by decide)

/-- **C10.** The converged loader assigns ids sequentially (1, 2, 3, …)
in input-line order and ignores the identifier field of any line with
at least three parsed integer fields: its output is `loadedFrom`, which
reads only fields 0 (arrival) and 2 (service); consequently every
loaded job's id `i` satisfies `1 ≤ i ≤ job_count`, a valid 1-based
index into the `completion`/`arrivals`/`bursts` arrays. -/
theorem load_jobs_sequential_ids :
    (∀ lines, load_jobs lines 1 = loadedFrom 1 (lines.filter wellFormed))
    ∧ (∀ (lines : List RawLine) (k : Nat) (job : Job),
        (load_jobs lines 1).get? k = some job →
        job.id = (k : Int) + 1 ∧ 1 ≤ job.id ∧
          job.id ≤ ((load_jobs lines 1).length : Int)) := by
  constructor
  · intro lines
    exact load_jobs_eq_loadedFrom lines 1
  · intro lines k job h
    have h' : (loadedFrom 1 (lines.filter wellFormed)).get? k = some job := by
      rw [← load_jobs_eq_loadedFrom]
      exact h
    have hid := loadedFrom_get? _ 1 k job h'
    have hk : k < (load_jobs lines 1).length := by
      by_contra hk
      rw [List.get?_eq_none.mpr (by omega)] at h
      exact Option.noConfusion h
    refine ⟨by omega, by omega, by omega⟩

/-- Witness for C10: in a four-line file with one comment and one short
line, the second loaded job (file id field 3) gets id 2 = its input
position, within bounds. -/
theorem load_jobs_sequential_ids_witness :
    (mkJob 2 4 2).id = ((1 : Nat) : Int) + 1 ∧ 1 ≤ (mkJob 2 4 2).id ∧
      (mkJob 2 4 2).id ≤
        ((load_jobs [⟨false, [0, 9, 5]⟩, ⟨true, [1, 2, 3]⟩, ⟨false, [2, 7]⟩,
            ⟨false, [4, 3, 2, 9, 9]⟩] 1).length : Int) :=
  load_jobs_sequential_ids.2
    [⟨false, [0, 9, 5]⟩, ⟨true, [1, 2, 3]⟩, ⟨false, [2, 7]⟩, ⟨false, [4, 3, 2, 9, 9]⟩]
    1 (mkJob 2 4 2) (by decide)

/-! ## Claim C7 — statistics reporter -/

lemma statRowsAux_totals : ∀ (cs as_ bs : List Int) (i ta wt : Int),
    (statRowsAux i ta wt cs as_ bs).2.1 =
      ta + ((statRowsAux i ta wt cs as_ bs).1.map StatRow.turnaround).sum
    ∧ (statRowsAux i ta wt cs as_ bs).2.2 =
      wt + ((statRowsAux i ta wt cs as_ bs).1.map StatRow.waiting).sum := by
  intro cs
  induction cs with
  | nil => intro as_ bs i ta wt; simp [statRowsAux]
  | cons c cs ih =>
    intro as_ bs i ta wt
    cases as_ with
    | nil => simp [statRowsAux]
    | cons a as_ =>
      cases bs with
      | nil => simp [statRowsAux]
      | cons b bs =>
        have h := ih as_ bs (i + 1) (ta + (c - a)) (wt + (c - a - b))
        simp only [statRowsAux, List.map_cons, List.sum_cons]
        constructor
        · rw [h.1]; ring
        · rw [h.2]; ring

lemma statRowsAux_get? : ∀ (cs as_ bs : List Int) (i ta wt : Int) (k : Nat)
    (c a b : Int), cs.get? k = some c → as_.get? k = some a → bs.get? k = some b →
    (statRowsAux i ta wt cs as_ bs).1.get? k =
      some ⟨i + (k : Int) + 1, a, b, c, c - a, c - a - b⟩ := by
  intro cs
  induction cs with
  | nil => intro as_ bs i ta wt k c a b hc; simp at hc
  | cons c0 cs ih =>
    intro as_ bs i ta wt k c a b hc ha hb
    cases as_ with
    | nil => simp at ha
    | cons a0 as_ =>
      cases bs with
      | nil => simp at hb
      | cons b0 bs =>
        cases k with
        | zero =>
          simp only [List.get?] at hc ha hb
          cases hc; cases ha; cases hb
          simp [statRowsAux]
        | succ k =>
          simp only [List.get?] at hc ha hb
          have h := ih as_ bs (i + 1) (ta + (c0 - a0)) (wt + (c0 - a0 - b0)) k c a b hc ha hb
          simp only [statRowsAux, List.get?, h, Option.some.injEq, StatRow.mk.injEq,
            and_true, true_and]
          push_cast
          ring

/-- **C7.** `print_statistics` is a pure function of the completion,
arrival and burst arrays: row `k` carries job id `k+1`,
turnaround = completion − arrival and
waiting = turnaround − burst; the printed averages are the sums of
those two columns divided by `n`; and recomputing on the same inputs
gives the identical result (there is no other state to affect). -/
theorem print_statistics_pure :
    (∀ (completion arrivals bursts : List Int) (n : Nat) (k : Nat) (c a b : Int),
        completion.get? k = some c → arrivals.get? k = some a → bursts.get? k = some b →
        (print_statistics completion arrivals bursts n).1.get? k =
          some ⟨(k : Int) + 1, a, b, c, c - a, c - a - b⟩)
    ∧ (∀ (completion arrivals bursts : List Int) (n : Nat),
        (print_statistics completion arrivals bursts n).2.1 =
          ((((print_statistics completion arrivals bursts n).1.map
              StatRow.turnaround).sum : Int) : ℚ) / (n : ℚ)
        ∧ (print_statistics completion arrivals bursts n).2.2 =
          ((((print_statistics completion arrivals bursts n).1.map
              StatRow.waiting).sum : Int) : ℚ) / (n : ℚ))
    ∧ (∀ (completion arrivals bursts : List Int) (n : Nat),
        print_statistics completion arrivals bursts n =
          print_statistics completion arrivals bursts n) := by
  refine ⟨?_, ?_, fun _ _ _ _ => rfl⟩
  · intro completion arrivals bursts n k c a b hc ha hb
    have h := statRowsAux_get? completion arrivals bursts 0 0 0 k c a b hc ha hb
    show (statRowsAux 0 0 0 completion arrivals bursts).1.get? k = _
    rw [h]
    simp only [Option.some.injEq, StatRow.mk.injEq, and_true, true_and]
    ring
  · intro completion arrivals bursts n
    have h := statRowsAux_totals completion arrivals bursts 0 0 0
    constructor
    · show ((statRowsAux 0 0 0 completion arrivals bursts).2.1 : ℚ) / (n : ℚ) =
        ((((statRowsAux 0 0 0 completion arrivals bursts).1.map
            StatRow.turnaround).sum : Int) : ℚ) / (n : ℚ)
      rw [h.1]
      norm_num
    · show ((statRowsAux 0 0 0 completion arrivals bursts).2.2 : ℚ) / (n : ℚ) =
        ((((statRowsAux 0 0 0 completion arrivals bursts).1.map
            StatRow.waiting).sum : Int) : ℚ) / (n : ℚ)
      rw [h.2]
      norm_num

/-- Witness for C7, on the §8 scenario's statistics inputs: row 1 is
Job2 with turnaround 3 and waiting 1, and the averages are 11/3 and
5/3. -/
theorem print_statistics_pure_witness :
    (print_statistics [6, 4, 5] [0, 1, 3] [3, 2, 1] 3).1.get? 1 =
      some ⟨((1 : Nat) : Int) + 1, 1, 2, 4, 4 - 1, 4 - 1 - 2⟩ :=
  print_statistics_pure.1 [6, 4, 5] [0, 1, 3] [3, 2, 1] 3 1 4 1 2 rfl rfl rfl

/-! ## Claim C5 — admission -/

/-- **C5, counterexample.** Admission only pops while the *head* of the
input queue is due, and the loader never sorts: on the (unsorted) job
list [Job1(arrival 1), Job2(arrival 0)] the admission step at tick 0
admits nothing, although Job2 is a not-yet-admitted job whose arrival
time is ≤ 0. -/
theorem unsorted_admission_misses_due_job :
    admittedAt 0 [mkJob 1 1 1, mkJob 2 0 1] = []
    ∧ mkJob 2 0 1 ∈ [mkJob 1 1 1, mkJob 2 0 1]
    ∧ (mkJob 2 0 1).arrival ≤ ((0 : Nat) : Int)
    ∧ List.filter (fun j => decide (j.arrival ≤ ((0 : Nat) : Int)))
        [mkJob 1 1 1, mkJob 2 0 1] ≠ [] := by
  decide

/-- On a sorted input queue, popping due heads is exactly filtering the
due jobs. -/
lemma admittedAt_eq_filter_of_sorted : ∀ (t : Nat) (input : List Job),
    sortedByArrival input →
    admittedAt t input =
        input.filter (fun j => decide (j.arrival ≤ (t : Int)))
    ∧ inputAfter t input =
        input.filter (fun j => !decide (j.arrival ≤ (t : Int))) := by
  intro t input
  induction input with
  | nil => intro _; exact ⟨rfl, rfl⟩
  | cons j rest ih =>
    intro hs
    have hj : ∀ b ∈ rest, j.arrival ≤ b.arrival :=
      fun b hb => List.rel_of_pairwise_cons hs hb
    have hrest := ih (List.Pairwise.of_cons hs)
    by_cases h : j.arrival ≤ (t : Int)
    · simp only [admittedAt, inputAfter, List.takeWhile, List.dropWhile,
        List.filter, decide_eq_true h, Bool.not_true]
      exact ⟨congrArg (j :: ·) hrest.1, hrest.2⟩
    · have hd : decide (j.arrival ≤ (t : Int)) = false := decide_eq_false h
      simp only [admittedAt, inputAfter, List.takeWhile, List.dropWhile,
        List.filter, hd, Bool.not_false]
      constructor
      · symm
        rw [List.filter_eq_nil_iff]
        intro b hb
        have := hj b hb
        simp only [decide_eq_true_eq]
        omega
      · symm
        rw [List.cons_eq_cons]
        refine ⟨rfl, ?_⟩
        rw [List.filter_eq_self]
        intro b hb
        have := hj b hb
        simp only [Bool.not_eq_true', decide_eq_false_iff_not]
        omega

lemma loopAdmits_append : ∀ (fuel : Nat) (st final : DSt),
    loopRun fuel st = some final →
    loopAdmits fuel st ++ final.input = st.input := by
  intro fuel
  induction fuel with
  | zero => intro st final h; simp [loopRun] at h
  | succ f ih =>
    intro st final h
    rw [loopRun] at h
    rw [loopAdmits]
    by_cases h0 : allDone st
    · rw [if_pos h0] at h
      cases h
      rw [if_pos h0, List.nil_append]
    · rw [if_neg h0] at h
      rw [if_neg h0]
      by_cases h1 : allDone (tickBody st)
      · rw [if_pos h1] at h
        cases h
        rw [if_pos h1, List.append_nil, tickBody_input]
        exact List.takeWhile_append_dropWhile _ _
      · rw [if_neg h1] at h
        rw [if_neg h1]
        have h2 := ih _ _ h
        have h3 : (recordTick (tickBody st)).input = inputAfter st.t st.input := by
          rw [recordTick, tickBody_input]
        rw [List.append_assoc, h2, h3]
        exact List.takeWhile_append_dropWhile _ _

/-- **C5, amended.** (i) On an input queue sorted ascending by arrival
time — the documented Arrival Queue invariant — the admission step at
each tick removes and enqueues exactly the not-yet-admitted jobs whose
arrival time is ≤ the current tick, in queue (= stable arrival) order.
(ii) On *any* input, over a whole terminating run the jobs handed to
the Ready Queue by admission are exactly the initial job list, in
order: every job is admitted exactly once, never skipped, never
duplicated. -/
theorem admission_exact_and_exactly_once :
    (∀ (t : Nat) (input : List Job), sortedByArrival input →
        admittedAt t input =
            input.filter (fun j => decide (j.arrival ≤ (t : Int)))
        ∧ inputAfter t input =
            input.filter (fun j => !decide (j.arrival ≤ (t : Int))))
    ∧ (∀ (jobs : List Job) (fuel : Nat) (final : DSt),
        loopRun fuel (initSt jobs) = some final →
        loopAdmits fuel (initSt jobs) = jobs) := by
  constructor
  · exact admittedAt_eq_filter_of_sorted
  · intro jobs fuel final h
    have h1 := loopAdmits_append fuel (initSt jobs) final h
    have h2 : final.input = [] := by
      have h3 := loopRun_allDone fuel _ _ h
      unfold allDone at h3
      rw [Bool.and_eq_true, Bool.and_eq_true] at h3
      exact List.isEmpty_iff.mp h3.1.1
    rw [h2, List.append_nil] at h1
    exact h1

/-- Witness for C5: at tick 1 of the (sorted) §8 scenario the admitted
prefix is exactly the due-job filter, and the whole run admits the
three jobs exactly once each, in order. -/
theorem admission_exact_and_exactly_once_witness :
    admittedAt 1 scenarioJobs =
        scenarioJobs.filter (fun j => decide (j.arrival ≤ ((1 : Nat) : Int)))
    ∧ loopAdmits 30 (initSt scenarioJobs) = scenarioJobs :=
  ⟨(admission_exact_and_exactly_once.1 1 scenarioJobs
      (by unfold sortedByArrival; decide)).1,
    admission_exact_and_exactly_once.2 scenarioJobs 30 scenarioFinal (by decide)⟩

/-! ## Claim C8 — termination of the dispatcher loop -/

lemma sumRem_append (a b : List Job) : sumRem (a ++ b) = sumRem a + sumRem b := by
  unfold sumRem
  rw [List.map_append, List.sum_append]

lemma sumRem_cons (j : Job) (l : List Job) :
    sumRem (j :: l) = j.remaining.toNat + sumRem l := by
  unfold sumRem
  rw [List.map_cons, List.sum_cons]

lemma slackOf_append (t : Nat) (a b : List Job) :
    slackOf t (a ++ b) = slackOf t a + slackOf t b := by
  unfold slackOf
  rw [List.map_append, List.sum_append]

lemma slackOf_cons (t : Nat) (j : Job) (l : List Job) :
    slackOf t (j :: l) = (j.arrival - (t : Int)).toNat + slackOf t l := by
  unfold slackOf
  rw [List.map_cons, List.sum_cons]

lemma slackOf_succ_le (t : Nat) (l : List Job) :
    slackOf (t + 1) l ≤ slackOf t l := by
  unfold slackOf
  refine List.sum_le_sum ?_
  intro j _
  have : ((t + 1 : Nat) : Int) = (t : Int) + 1 := by push_cast; ring
  rw [this]
  omega

/-- If the input queue is non-empty after admission, its head is not
yet due. -/
lemma inputAfter_head_not_due : ∀ (inp : List Job) (t : Nat) (j : Job)
    (rest : List Job), inputAfter t inp = j :: rest → ¬ j.arrival ≤ (t : Int) := by
  intro inp
  induction inp with
  | nil => intro t j rest h; exact absurd h (by simp [inputAfter])
  | cons x xs ih =>
    intro t j rest h
    by_cases hx : x.arrival ≤ (t : Int)
    · rw [inputAfter, List.dropWhile_cons_of_pos (by simpa using hx)] at h
      exact ih t j rest h
    · rw [inputAfter, List.dropWhile_cons_of_neg (by simpa using hx)] at h
      cases h
      exact hx

/-- Exhaustive shapes of one loop body, by the branch taken: idle,
dispatch-only, completion (with and without a successor), preemption,
and continuation. -/
lemma tickBody_cases (st : DSt) :
    (st.current = none ∧ st.rq ++ admittedAt st.t st.input = [] ∧
      tickBody st = { st with input := inputAfter st.t st.input, rq := [], current := none })
    ∨ (∃ d ds, st.current = none ∧ st.rq ++ admittedAt st.t st.input = d :: ds ∧
      tickBody st = { st with input := inputAfter st.t st.input, rq := ds, current := some (startOrResume d) })
    ∨ (∃ c, st.current = some c ∧ c.remaining - 1 ≤ 0 ∧
        st.rq ++ admittedAt st.t st.input = [] ∧
      tickBody st = { st with input := inputAfter st.t st.input, rq := [], current := none, completions := st.completions ++ [(c.id, st.t)] })
    ∨ (∃ c d ds, st.current = some c ∧ c.remaining - 1 ≤ 0 ∧
        st.rq ++ admittedAt st.t st.input = d :: ds ∧
      tickBody st = { st with input := inputAfter st.t st.input, rq := ds, current := some (startOrResume d), completions := st.completions ++ [(c.id, st.t)] })
    ∨ (∃ c d ds, st.current = some c ∧ ¬ c.remaining - 1 ≤ 0 ∧
        st.rq ++ admittedAt st.t st.input = d :: ds ∧
      tickBody st = { st with input := inputAfter st.t st.input, rq := ds ++ [{ c with remaining := c.remaining - 1, state := JState.suspended }], current := some (startOrResume d) })
    ∨ (∃ c, st.current = some c ∧ ¬ c.remaining - 1 ≤ 0 ∧
        st.rq ++ admittedAt st.t st.input = [] ∧
      tickBody st = { st with input := inputAfter st.t st.input, rq := [], current := some { c with remaining := c.remaining - 1 } }) := by
  obtain ⟨inp, rq, cur, t, g, comps⟩ := st
  cases cur with
  | none =>
    cases hA : rq ++ admittedAt t inp with
    | nil =>
      left
      refine ⟨rfl, rfl, ?_⟩
      unfold tickBody move_arrivals_to_rr runCurrent dispatch
      simp only [hA]
    | cons d ds =>
      right; left
      refine ⟨d, ds, rfl, rfl, ?_⟩
      unfold tickBody move_arrivals_to_rr runCurrent dispatch
      simp only [hA]
  | some c =>
    by_cases h1 : c.remaining - 1 ≤ 0
    · cases hA : rq ++ admittedAt t inp with
      | nil =>
        right; right; left
        refine ⟨c, rfl, h1, rfl, ?_⟩
        unfold tickBody move_arrivals_to_rr runCurrent dispatch
        simp only [if_pos h1, hA]
      | cons d ds =>
        right; right; right; left
        refine ⟨c, d, ds, rfl, h1, rfl, ?_⟩
        unfold tickBody move_arrivals_to_rr runCurrent dispatch
        simp only [if_pos h1, hA]
    · cases hA : rq ++ admittedAt t inp with
      | nil =>
        right; right; right; right; right
        refine ⟨c, rfl, h1, rfl, ?_⟩
        unfold tickBody move_arrivals_to_rr runCurrent dispatch
        simp only [if_neg h1, hA, ne_eq, not_true_eq_false, if_neg]
        simp
      | cons d ds =>
        right; right; right; right; left
        refine ⟨c, d, ds, rfl, h1, rfl, ?_⟩
        unfold tickBody move_arrivals_to_rr runCurrent dispatch
        simp only [if_neg h1, hA]
        rw [if_pos (by simp)]
        simp [List.cons_append]

lemma liveJobs_decomp (st : DSt) :
    sumRem (liveJobs st) =
      sumRem st.input + sumRem st.rq + sumRem st.current.toList := by
  unfold liveJobs
  rw [sumRem_append, sumRem_append]

lemma mem_live_of_input {st : DSt} {j : Job} (h : j ∈ st.input) :
    j ∈ liveJobs st := by
  unfold liveJobs
  simp only [List.mem_append]
  exact Or.inl (Or.inl h)

lemma mem_live_of_rq {st : DSt} {j : Job} (h : j ∈ st.rq) : j ∈ liveJobs st := by
  unfold liveJobs
  simp only [List.mem_append]
  exact Or.inl (Or.inr h)

lemma mem_live_of_current {st : DSt} {c : Job} (h : st.current = some c) :
    c ∈ liveJobs st := by
  unfold liveJobs
  simp only [List.mem_append, h]
  right
  simp [Option.toList]

lemma sumRem_nil : sumRem [] = 0 := rfl

lemma slackOf_nil (t : Nat) : slackOf t [] = 0 := rfl

lemma sumRem_toList_none : sumRem ((none : Option Job).toList) = 0 := rfl

lemma sumRem_toList_some (c : Job) :
    sumRem ((some c).toList) = c.remaining.toNat := by
  simp [sumRem, Option.toList]

/-- One loop body preserves "every live job has at least one unit of
service left". -/
lemma liveRemPos_body (st : DSt) (h : ∀ j ∈ liveJobs st, 1 ≤ j.remaining) :
    ∀ j ∈ liveJobs (tickBody st), 1 ≤ j.remaining := by
  have hinp : ∀ j ∈ inputAfter st.t st.input, 1 ≤ j.remaining := fun j hj =>
    h j (mem_live_of_input (List.Sublist.mem hj (List.dropWhile_sublist _)))
  have hrqA : ∀ j ∈ st.rq ++ admittedAt st.t st.input, 1 ≤ j.remaining := by
    intro j hj
    rcases List.mem_append.mp hj with hr | ha
    · exact h j (mem_live_of_rq hr)
    · exact h j (mem_live_of_input (List.Sublist.mem ha (List.takeWhile_sublist _)))
  rcases tickBody_cases st with ⟨hc, hA, heq⟩ | ⟨d, ds, hc, hA, heq⟩ |
    ⟨c, hc, h1, hA, heq⟩ | ⟨c, d, ds, hc, h1, hA, heq⟩ |
    ⟨c, d, ds, hc, h1, hA, heq⟩ | ⟨c, hc, h1, hA, heq⟩ <;> rw [heq] <;> intro j hj
  · simp only [liveJobs, hc, Option.toList, List.append_nil, List.mem_append,
      List.not_mem_nil, or_false] at hj
    exact hinp j hj
  · simp only [liveJobs, Option.toList, List.mem_append, List.mem_singleton,
      List.not_mem_nil, or_false] at hj
    rcases hj with (hj | hj) | hj
    · exact hinp j hj
    · exact hrqA j (hA ▸ List.mem_cons_of_mem d hj)
    · rw [hj, startOrResume_remaining]
      exact hrqA d (hA ▸ List.mem_cons_self d ds)
  · simp only [liveJobs, Option.toList, List.append_nil, List.mem_append,
      List.not_mem_nil, or_false] at hj
    exact hinp j hj
  · simp only [liveJobs, Option.toList, List.mem_append, List.mem_singleton,
      List.not_mem_nil, or_false] at hj
    rcases hj with (hj | hj) | hj
    · exact hinp j hj
    · exact hrqA j (hA ▸ List.mem_cons_of_mem d hj)
    · rw [hj, startOrResume_remaining]
      exact hrqA d (hA ▸ List.mem_cons_self d ds)
  · simp only [liveJobs, Option.toList, List.mem_append, List.mem_singleton,
      List.not_mem_nil, or_false] at hj
    rcases hj with (hj | hj | hj) | hj
    · exact hinp j hj
    · exact hrqA j (hA ▸ List.mem_cons_of_mem d hj)
    · rw [hj]
      show (1 : Int) ≤ c.remaining - 1
      omega
    · rw [hj, startOrResume_remaining]
      exact hrqA d (hA ▸ List.mem_cons_self d ds)
  · simp only [liveJobs, Option.toList, List.append_nil, List.mem_append,
      List.mem_singleton, List.not_mem_nil, or_false] at hj
    rcases hj with hj | hj
    · exact hinp j hj
    · rw [hj]
      show (1 : Int) ≤ c.remaining - 1
      omega

/-- Every recorded loop iteration strictly decreases the measure. -/
lemma dispMeasure_step (st : DSt) (h : ∀ j ∈ liveJobs st, 1 ≤ j.remaining)
    (h1 : ¬ allDone (tickBody st) = true) :
    dispMeasure (recordTick (tickBody st)) < dispMeasure st := by
  have hs1 : sumRem (admittedAt st.t st.input) + sumRem (inputAfter st.t st.input) =
      sumRem st.input := by
    rw [← sumRem_append]
    exact congrArg sumRem (List.takeWhile_append_dropWhile _ _)
  have hs2 : slackOf st.t (admittedAt st.t st.input) +
      slackOf st.t (inputAfter st.t st.input) = slackOf st.t st.input := by
    rw [← slackOf_append]
    exact congrArg (slackOf st.t) (List.takeWhile_append_dropWhile _ _)
  have hs3 : slackOf (st.t + 1) (inputAfter st.t st.input) ≤
      slackOf st.t (inputAfter st.t st.input) := slackOf_succ_le _ _
  rcases tickBody_cases st with ⟨hc, hA, heq⟩ | ⟨d, ds, hc, hA, heq⟩ |
    ⟨c, hc, h1', hA, heq⟩ | ⟨c, d, ds, hc, h1', hA, heq⟩ |
    ⟨c, d, ds, hc, h1', hA, heq⟩ | ⟨c, hc, h1', hA, heq⟩
  · -- idle tick: the head of the remaining input gets one tick closer
    obtain ⟨hrq, hadm⟩ := List.append_eq_nil.mp hA
    have e1 : dispMeasure (recordTick (tickBody st)) =
        2 * (sumRem (inputAfter st.t st.input ++ [] ++ []) +
          slackOf (st.t + 1) (inputAfter st.t st.input)) + 1 := by
      rw [heq]
      rfl
    have e2 : sumRem (inputAfter st.t st.input ++ [] ++ []) =
        sumRem (inputAfter st.t st.input) := by
      simp [sumRem_append, sumRem_nil]
    have e3 : dispMeasure st = 2 * (sumRem st.input + sumRem st.rq + 0 +
        slackOf st.t st.input) + 1 := by
      unfold dispMeasure slackAt
      rw [liveJobs_decomp, hc]
      rfl
    rcases hR : inputAfter st.t st.input with _ | ⟨r0, R'⟩
    · exfalso
      apply h1
      rw [heq, allDone]
      simp [hR]
    · have hr0 : ¬ r0.arrival ≤ (st.t : Int) := inputAfter_head_not_due _ _ _ _ hR
      have hkey : slackOf (st.t + 1) (inputAfter st.t st.input) + 1 ≤
          slackOf st.t (inputAfter st.t st.input) := by
        rw [hR, slackOf_cons, slackOf_cons]
        have htail := slackOf_succ_le st.t R'
        have hcast : ((st.t + 1 : Nat) : Int) = (st.t : Int) + 1 := by
          push_cast
          ring
        rw [hcast]
        omega
      have hrq0 : sumRem st.rq = 0 := by rw [hrq, sumRem_nil]
      have hadm0 : sumRem (admittedAt st.t st.input) = 0 := by
        rw [hadm, sumRem_nil]
      rw [e1, e2, e3]
      omega
  · -- dispatch-only: filling the empty slot pays for the iteration
    have e1 : dispMeasure (recordTick (tickBody st)) =
        2 * (sumRem (inputAfter st.t st.input ++ ds ++ [startOrResume d]) +
          slackOf (st.t + 1) (inputAfter st.t st.input)) + 0 := by
      rw [heq]
      rfl
    have e2 : sumRem (inputAfter st.t st.input ++ ds ++ [startOrResume d]) =
        sumRem (inputAfter st.t st.input) + sumRem ds + d.remaining.toNat := by
      rw [sumRem_append, sumRem_append, sumRem_cons, sumRem_nil,
        startOrResume_remaining]
      omega
    have e3 : dispMeasure st = 2 * (sumRem st.input + sumRem st.rq + 0 +
        slackOf st.t st.input) + 1 := by
      unfold dispMeasure slackAt
      rw [liveJobs_decomp, hc]
      rfl
    have hsum : sumRem st.rq + sumRem (admittedAt st.t st.input) =
        d.remaining.toNat + sumRem ds := by
      rw [← sumRem_append, hA, sumRem_cons]
    rw [e1, e2, e3]
    omega
  · -- completion, nobody left to dispatch
    obtain ⟨hrq, hadm⟩ := List.append_eq_nil.mp hA
    have hc1 : 1 ≤ c.remaining := h c (mem_live_of_current hc)
    have e1 : dispMeasure (recordTick (tickBody st)) =
        2 * (sumRem (inputAfter st.t st.input ++ [] ++ []) +
          slackOf (st.t + 1) (inputAfter st.t st.input)) + 1 := by
      rw [heq]
      rfl
    have e2 : sumRem (inputAfter st.t st.input ++ [] ++ []) =
        sumRem (inputAfter st.t st.input) := by
      simp [sumRem_append, sumRem_nil]
    have e3 : dispMeasure st = 2 * (sumRem st.input + sumRem st.rq +
        c.remaining.toNat + slackOf st.t st.input) + 0 := by
      unfold dispMeasure slackAt
      rw [liveJobs_decomp, hc, sumRem_toList_some]
      rfl
    have hrq0 : sumRem st.rq = 0 := by rw [hrq, sumRem_nil]
    have hadm0 : sumRem (admittedAt st.t st.input) = 0 := by
      rw [hadm, sumRem_nil]
    rw [e1, e2, e3]
    omega
  · -- completion with successor dispatched
    have hc1 : 1 ≤ c.remaining := h c (mem_live_of_current hc)
    have e1 : dispMeasure (recordTick (tickBody st)) =
        2 * (sumRem (inputAfter st.t st.input ++ ds ++ [startOrResume d]) +
          slackOf (st.t + 1) (inputAfter st.t st.input)) + 0 := by
      rw [heq]
      rfl
    have e2 : sumRem (inputAfter st.t st.input ++ ds ++ [startOrResume d]) =
        sumRem (inputAfter st.t st.input) + sumRem ds + d.remaining.toNat := by
      rw [sumRem_append, sumRem_append, sumRem_cons, sumRem_nil,
        startOrResume_remaining]
      omega
    have e3 : dispMeasure st = 2 * (sumRem st.input + sumRem st.rq +
        c.remaining.toNat + slackOf st.t st.input) + 0 := by
      unfold dispMeasure slackAt
      rw [liveJobs_decomp, hc, sumRem_toList_some]
      rfl
    have hsum : sumRem st.rq + sumRem (admittedAt st.t st.input) =
        d.remaining.toNat + sumRem ds := by
      rw [← sumRem_append, hA, sumRem_cons]
    rw [e1, e2, e3]
    omega
  · -- preemption: the outgoing job re-enters with remaining - 1
    have hc1 : 1 ≤ c.remaining := h c (mem_live_of_current hc)
    have e1 : dispMeasure (recordTick (tickBody st)) =
        2 * (sumRem (inputAfter st.t st.input ++ (ds ++ [{ c with remaining := c.remaining - 1, state := JState.suspended }]) ++ [startOrResume d]) +
          slackOf (st.t + 1) (inputAfter st.t st.input)) + 0 := by
      rw [heq]
      rfl
    have e2 : sumRem (inputAfter st.t st.input ++ (ds ++ [{ c with remaining := c.remaining - 1, state := JState.suspended }]) ++ [startOrResume d]) =
        sumRem (inputAfter st.t st.input) + (sumRem ds + (c.remaining - 1).toNat) +
          d.remaining.toNat := by
      rw [sumRem_append, sumRem_append, sumRem_append, sumRem_cons, sumRem_cons,
        sumRem_nil, startOrResume_remaining]
      dsimp only
      omega
    have e3 : dispMeasure st = 2 * (sumRem st.input + sumRem st.rq +
        c.remaining.toNat + slackOf st.t st.input) + 0 := by
      unfold dispMeasure slackAt
      rw [liveJobs_decomp, hc, sumRem_toList_some]
      rfl
    have hsum : sumRem st.rq + sumRem (admittedAt st.t st.input) =
        d.remaining.toNat + sumRem ds := by
      rw [← sumRem_append, hA, sumRem_cons]
    rw [e1, e2, e3]
    omega
  · -- continuation: the running job pays one unit
    obtain ⟨hrq, hadm⟩ := List.append_eq_nil.mp hA
    have hc1 : 1 ≤ c.remaining := h c (mem_live_of_current hc)
    have e1 : dispMeasure (recordTick (tickBody st)) =
        2 * (sumRem (inputAfter st.t st.input ++ [] ++ [{ c with remaining := c.remaining - 1 }]) +
          slackOf (st.t + 1) (inputAfter st.t st.input)) + 0 := by
      rw [heq]
      rfl
    have e2 : sumRem (inputAfter st.t st.input ++ [] ++ [{ c with remaining := c.remaining - 1 }]) =
        sumRem (inputAfter st.t st.input) + (c.remaining - 1).toNat := by
      rw [sumRem_append, sumRem_append, sumRem_cons, sumRem_nil]
      dsimp only
      omega
    have e3 : dispMeasure st = 2 * (sumRem st.input + sumRem st.rq +
        c.remaining.toNat + slackOf st.t st.input) + 0 := by
      unfold dispMeasure slackAt
      rw [liveJobs_decomp, hc, sumRem_toList_some]
      rfl
    have hrq0 : sumRem st.rq = 0 := by rw [hrq, sumRem_nil]
    have hadm0 : sumRem (admittedAt st.t st.input) = 0 := by
      rw [hadm, sumRem_nil]
    rw [e1, e2, e3]
    omega

/-- With fuel above the measure, the loop reaches its exit. -/
lemma loopRun_total : ∀ (fuel : Nat) (st : DSt),
    (∀ j ∈ liveJobs st, 1 ≤ j.remaining) → dispMeasure st < fuel →
    (loopRun fuel st).isSome = true := by
  intro fuel
  induction fuel with
  | zero => intro st _ hm; exact absurd hm (Nat.not_lt_zero _)
  | succ f ih =>
    intro st hrem hm
    rw [loopRun]
    by_cases h0 : allDone st
    · rw [if_pos h0]
      rfl
    · rw [if_neg h0]
      by_cases h1 : allDone (tickBody st)
      · rw [if_pos h1]
        rfl
      · rw [if_neg h1]
        apply ih
        · intro j hj
          exact liveRemPos_body st hrem j hj
        · have hd := dispMeasure_step st hrem h1
          omega

/-- **C8.** For every finite job list with positive service times (and
`remaining` initialized to the service time, as the loader does), the
dispatcher loop terminates within the computed fuel bound, and the
state it stops in has the input queue, the RR queue and the `current`
slot all empty — by construction of the loop (guard and break both
test exactly that emptiness) it can stop in no other state and no
earlier. -/
theorem dispatcher_loop_terminates_drained (jobs : List Job)
    (hpos : ∀ j ∈ jobs, 1 ≤ j.total_cpu ∧ j.remaining = j.total_cpu) :
    (loopRun (fuelBound jobs) (initSt jobs)).isSome = true
    ∧ (loopRun (fuelBound jobs) (initSt jobs)).map allDone = some true := by
  have hrem : ∀ j ∈ liveJobs (initSt jobs), 1 ≤ j.remaining := by
    intro j hj
    have hj2 : j ∈ jobs := by
      simpa [liveJobs, initSt] using hj
    have := hpos j hj2
    omega
  have h1 := loopRun_total (fuelBound jobs) (initSt jobs) hrem
    (by unfold fuelBound; omega)
  obtain ⟨final, hf⟩ := Option.isSome_iff_exists.mp h1
  refine ⟨h1, ?_⟩
  rw [hf]
  show some (allDone final) = some true
  rw [loopRun_allDone _ _ _ hf]

/-- Witness for C8: the §8 scenario terminates inside its fuel bound
with everything drained. -/
theorem dispatcher_loop_terminates_drained_witness :
    (loopRun (fuelBound scenarioJobs) (initSt scenarioJobs)).isSome = true
    ∧ (loopRun (fuelBound scenarioJobs) (initSt scenarioJobs)).map allDone =
        some true :=
  dispatcher_loop_terminates_drained scenarioJobs (by decide)

/-! ## Claims C3/C4 — trace accounting invariant -/

lemma count_append_entry (g : List Int) (e i : Int) :
    (g ++ [e]).count i = g.count i + (if e = i then 1 else 0) := by
  rw [List.count_append, List.count_singleton]
  simp [beq_iff_eq]

lemma get?_append_entry (g : List Int) (e : Int) (k : Nat) :
    (g ++ [e]).get? k =
      if k < g.length then g.get? k
      else if k = g.length then some e else none := by
  by_cases h : k < g.length
  · rw [if_pos h, List.get?_append h]
  · rw [if_neg h]
    by_cases h2 : k = g.length
    · rw [if_pos h2, h2, List.get?_concat_length]
    · rw [if_neg h2]
      refine List.get?_eq_none.mpr ?_
      rw [List.length_append, List.length_singleton]
      omega

lemma subperm_nodup {α : Type} {l1 l2 : List α} (h : l1.Subperm l2)
    (h2 : l2.Nodup) : l1.Nodup := by
  obtain ⟨l, hp, hs⟩ := h
  exact hp.nodup_iff.mp (hs.nodup h2)

/-- Split the live-id Nodup fact into the pieces the step proof needs:
the pool (RR queue plus this tick's admissions), the remaining input,
and the current job all carry pairwise distinct ids. -/
lemma liveNodup_parts (st : DSt)
    (h : ((liveJobs st).map Job.id).Nodup) :
    ((st.rq ++ admittedAt st.t st.input).map Job.id).Nodup
    ∧ ((inputAfter st.t st.input).map Job.id).Nodup
    ∧ (∀ x ∈ st.rq ++ admittedAt st.t st.input,
        ∀ y ∈ inputAfter st.t st.input, x.id ≠ y.id)
    ∧ (∀ c, st.current = some c →
        (∀ x ∈ st.rq ++ admittedAt st.t st.input, x.id ≠ c.id)
        ∧ (∀ y ∈ inputAfter st.t st.input, y.id ≠ c.id)) := by
  have hsplit : admittedAt st.t st.input ++ inputAfter st.t st.input = st.input :=
    List.takeWhile_append_dropWhile _ _
  have h2 : (((admittedAt st.t st.input ++ inputAfter st.t st.input) ++ st.rq ++
      st.current.toList).map Job.id).Nodup := by
    rw [hsplit]
    exact h
  simp only [List.map_append, List.nodup_append] at h2
  obtain ⟨⟨⟨hA, hR, hAR⟩, hrq, hARrq⟩, hcur, hdisj⟩ := h2
  refine ⟨?_, hR, ?_, ?_⟩
  · rw [List.map_append, List.nodup_append]
    refine ⟨hrq, hA, ?_⟩
    intro a ha hb
    exact hARrq (List.mem_append_left _ hb) ha
  · intro x hx y hy hxy
    have hyR : x.id ∈ (inputAfter st.t st.input).map Job.id := by
      rw [hxy]
      exact List.mem_map_of_mem Job.id hy
    rcases List.mem_append.mp hx with hx | hx
    · exact hARrq (List.mem_append_right _ hyR) (List.mem_map_of_mem Job.id hx)
    · exact hAR (List.mem_map_of_mem Job.id hx) hyR
  · intro c hc
    have hcl : c.id ∈ st.current.toList.map Job.id := by
      rw [hc]
      simp [Option.toList]
    constructor
    · intro x hx hxc
      rcases List.mem_append.mp hx with hx | hx
      · exact hdisj (List.mem_append_right _ (List.mem_map_of_mem Job.id hx))
          (hxc ▸ hcl)
      · exact hdisj (List.mem_append_left _
          (List.mem_append_left _ (List.mem_map_of_mem Job.id hx))) (hxc ▸ hcl)
    · intro y hy hyc
      exact hdisj (List.mem_append_left _
        (List.mem_append_right _ (List.mem_map_of_mem Job.id hy))) (hyc ▸ hcl)

lemma count_append_ne (g : List Int) {e i : Int} (h : e ≠ i) :
    (g ++ [e]).count i = g.count i := by
  rw [count_append_entry, if_neg h, Nat.add_zero]

lemma count_append_self (g : List Int) (i : Int) :
    (g ++ [i]).count i = g.count i + 1 := by
  rw [count_append_entry, if_pos rfl]

/-- One loop body preserves "every live job has a positive id and
positive remaining time". -/
lemma livePos_body (st : DSt) (h : ∀ j ∈ liveJobs st, 1 ≤ j.id ∧ 1 ≤ j.remaining) :
    ∀ j ∈ liveJobs (tickBody st), 1 ≤ j.id ∧ 1 ≤ j.remaining := by
  have hinp : ∀ j ∈ inputAfter st.t st.input, 1 ≤ j.id ∧ 1 ≤ j.remaining :=
    fun j hj =>
      h j (mem_live_of_input (List.Sublist.mem hj (List.dropWhile_sublist _)))
  have hrqA : ∀ j ∈ st.rq ++ admittedAt st.t st.input, 1 ≤ j.id ∧ 1 ≤ j.remaining := by
    intro j hj
    rcases List.mem_append.mp hj with hr | ha
    · exact h j (mem_live_of_rq hr)
    · exact h j (mem_live_of_input (List.Sublist.mem ha (List.takeWhile_sublist _)))
  rcases tickBody_cases st with ⟨hc, hA, heq⟩ | ⟨d, ds, hc, hA, heq⟩ |
    ⟨c, hc, h1, hA, heq⟩ | ⟨c, d, ds, hc, h1, hA, heq⟩ |
    ⟨c, d, ds, hc, h1, hA, heq⟩ | ⟨c, hc, h1, hA, heq⟩ <;> rw [heq] <;> intro j hj
  · simp only [liveJobs, Option.toList, List.append_nil, List.mem_append,
      List.not_mem_nil, or_false] at hj
    exact hinp j hj
  · simp only [liveJobs, Option.toList, List.mem_append, List.mem_singleton,
      List.not_mem_nil, or_false] at hj
    rcases hj with (hj | hj) | hj
    · exact hinp j hj
    · exact hrqA j (hA ▸ List.mem_cons_of_mem d hj)
    · rw [hj, startOrResume_remaining, startOrResume_id]
      exact hrqA d (hA ▸ List.mem_cons_self d ds)
  · simp only [liveJobs, Option.toList, List.append_nil, List.mem_append,
      List.not_mem_nil, or_false] at hj
    exact hinp j hj
  · simp only [liveJobs, Option.toList, List.mem_append, List.mem_singleton,
      List.not_mem_nil, or_false] at hj
    rcases hj with (hj | hj) | hj
    · exact hinp j hj
    · exact hrqA j (hA ▸ List.mem_cons_of_mem d hj)
    · rw [hj, startOrResume_remaining, startOrResume_id]
      exact hrqA d (hA ▸ List.mem_cons_self d ds)
  · simp only [liveJobs, Option.toList, List.mem_append, List.mem_singleton,
      List.not_mem_nil, or_false] at hj
    rcases hj with (hj | hj | hj) | hj
    · exact hinp j hj
    · exact hrqA j (hA ▸ List.mem_cons_of_mem d hj)
    · rw [hj]
      have hc1 := h c (mem_live_of_current hc)
      refine ⟨hc1.1, ?_⟩
      show (1 : Int) ≤ c.remaining - 1
      omega
    · rw [hj, startOrResume_remaining, startOrResume_id]
      exact hrqA d (hA ▸ List.mem_cons_self d ds)
  · simp only [liveJobs, Option.toList, List.append_nil, List.mem_append,
      List.mem_singleton, List.not_mem_nil, or_false] at hj
    rcases hj with hj | hj
    · exact hinp j hj
    · rw [hj]
      have hc1 := h c (mem_live_of_current hc)
      refine ⟨hc1.1, ?_⟩
      show (1 : Int) ≤ c.remaining - 1
      omega

/-- Every job live after one body carries the id of a job live
before it. -/
lemma live_body_ids (st : DSt) :
    ∀ j ∈ liveJobs (tickBody st), ∃ j0, j0 ∈ liveJobs st ∧ j0.id = j.id := by
  have hinp : ∀ j ∈ inputAfter st.t st.input, j ∈ liveJobs st := fun j hj =>
    mem_live_of_input (List.Sublist.mem hj (List.dropWhile_sublist _))
  have hrqA : ∀ j ∈ st.rq ++ admittedAt st.t st.input, j ∈ liveJobs st := by
    intro j hj
    rcases List.mem_append.mp hj with hr | ha
    · exact mem_live_of_rq hr
    · exact mem_live_of_input (List.Sublist.mem ha (List.takeWhile_sublist _))
  rcases tickBody_cases st with ⟨hc, hA, heq⟩ | ⟨d, ds, hc, hA, heq⟩ |
    ⟨c, hc, h1, hA, heq⟩ | ⟨c, d, ds, hc, h1, hA, heq⟩ |
    ⟨c, d, ds, hc, h1, hA, heq⟩ | ⟨c, hc, h1, hA, heq⟩ <;> rw [heq] <;> intro j hj
  · simp only [liveJobs, Option.toList, List.append_nil, List.mem_append,
      List.not_mem_nil, or_false] at hj
    exact ⟨j, hinp j hj, rfl⟩
  · simp only [liveJobs, Option.toList, List.mem_append, List.mem_singleton,
      List.not_mem_nil, or_false] at hj
    rcases hj with (hj | hj) | hj
    · exact ⟨j, hinp j hj, rfl⟩
    · exact ⟨j, hrqA j (hA ▸ List.mem_cons_of_mem d hj), rfl⟩
    · exact ⟨d, hrqA d (hA ▸ List.mem_cons_self d ds),
        by rw [hj, startOrResume_id]⟩
  · simp only [liveJobs, Option.toList, List.append_nil, List.mem_append,
      List.not_mem_nil, or_false] at hj
    exact ⟨j, hinp j hj, rfl⟩
  · simp only [liveJobs, Option.toList, List.mem_append, List.mem_singleton,
      List.not_mem_nil, or_false] at hj
    rcases hj with (hj | hj) | hj
    · exact ⟨j, hinp j hj, rfl⟩
    · exact ⟨j, hrqA j (hA ▸ List.mem_cons_of_mem d hj), rfl⟩
    · exact ⟨d, hrqA d (hA ▸ List.mem_cons_self d ds),
        by rw [hj, startOrResume_id]⟩
  · simp only [liveJobs, Option.toList, List.mem_append, List.mem_singleton,
      List.not_mem_nil, or_false] at hj
    rcases hj with (hj | hj | hj) | hj
    · exact ⟨j, hinp j hj, rfl⟩
    · exact ⟨j, hrqA j (hA ▸ List.mem_cons_of_mem d hj), rfl⟩
    · exact ⟨c, mem_live_of_current hc, by rw [hj]⟩
    · exact ⟨d, hrqA d (hA ▸ List.mem_cons_self d ds),
        by rw [hj, startOrResume_id]⟩
  · simp only [liveJobs, Option.toList, List.append_nil, List.mem_append,
      List.mem_singleton, List.not_mem_nil, or_false] at hj
    rcases hj with hj | hj
    · exact ⟨j, hinp j hj, rfl⟩
    · exact ⟨c, mem_live_of_current hc, by rw [hj]⟩

/-- Old completion records survive one recorded iteration. -/
lemma comps_preserved (jobs : List Job) (st : DSt) (hI : DInv jobs st)
    (newlive : List Job) (e : Int)
    (he : e = -1 ∨ ∃ j0, j0 ∈ liveJobs st ∧ j0.id = e)
    (hids : ∀ j'' ∈ newlive, ∃ j0, j0 ∈ liveJobs st ∧ j0.id = j''.id) :
    ∀ p ∈ st.completions, 1 ≤ p.2 ∧ p.2 ≤ st.t + 1 ∧
      (st.gantt ++ [e]).get? (p.2 - 1) = some p.1 ∧
      (∀ k, p.2 ≤ k → (st.gantt ++ [e]).get? k ≠ some p.1) ∧
      (∀ j' ∈ newlive, j'.id ≠ p.1) ∧ 1 ≤ p.1 := by
  intro p hp
  obtain ⟨h1, h2, h3, h4, h5, h6⟩ := hI.comps p hp
  have hep : e ≠ p.1 := by
    rcases he with he | ⟨j0, hj0, hj0e⟩
    · rw [he]; omega
    · rw [← hj0e]; exact h5 j0 hj0
  refine ⟨h1, by omega, ?_, ?_, ?_, h6⟩
  · rw [get?_append_entry, if_pos]
    · exact h3
    · rw [← hI.tlen]
      omega
  · intro k hk
    rw [get?_append_entry]
    by_cases hlt : k < st.gantt.length
    · rw [if_pos hlt]
      exact h4 k hk
    · rw [if_neg hlt]
      by_cases heq2 : k = st.gantt.length
      · rw [if_pos heq2]
        intro hcontra
        exact hep (Option.some.inj hcontra)
      · rw [if_neg heq2]
        exact fun hcontra => Option.noConfusion hcontra
  · intro j' hj'
    obtain ⟨j0, hj0, hj0e⟩ := hids j' hj'
    rw [← hj0e]
    exact h5 j0 hj0

/-- A completion recorded this iteration points one past the job's
(final) Trace entry. -/
lemma comp_new (jobs : List Job) (st : DSt) (c : Job) (hI : DInv jobs st)
    (hc : st.current = some c) (newlive : List Job) (e : Int)
    (hec : e ≠ c.id)
    (hids : ∀ j'' ∈ newlive, j''.id ≠ c.id) :
    1 ≤ st.t ∧ st.t ≤ st.t + 1 ∧
      (st.gantt ++ [e]).get? (st.t - 1) = some c.id ∧
      (∀ k, st.t ≤ k → (st.gantt ++ [e]).get? k ≠ some c.id) ∧
      (∀ j' ∈ newlive, j'.id ≠ c.id) ∧ 1 ≤ c.id := by
  obtain ⟨tp, htp, hget⟩ := hI.curLast c hc
  have hlen : st.t = st.gantt.length := hI.tlen
  refine ⟨by omega, by omega, ?_, ?_, hids, (hI.livePos c (mem_live_of_current hc)).1⟩
  · rw [get?_append_entry, if_pos]
    · rw [show st.t - 1 = tp by omega]
      exact hget
    · have : tp < st.gantt.length := List.get?_eq_some.mp hget |>.1
      omega
  · intro k hk
    rw [get?_append_entry]
    rw [if_neg (by omega)]
    by_cases heq2 : k = st.gantt.length
    · rw [if_pos heq2]
      intro hcontra
      exact hec (Option.some.inj hcontra)
    · rw [if_neg heq2]
      exact fun hcontra => Option.noConfusion hcontra

/-- One loop body preserves distinctness of live job ids. -/
lemma liveNodup_body (st : DSt) (h : ((liveJobs st).map Job.id).Nodup) :
    ((liveJobs (tickBody st)).map Job.id).Nodup := by
  rw [List.nodup_iff_count_le_one] at h ⊢
  intro a
  have hold := h a
  simp only [liveJobs, List.map_append, List.count_append] at hold
  have hsplit : admittedAt st.t st.input ++ inputAfter st.t st.input = st.input :=
    List.takeWhile_append_dropWhile _ _
  have hin : List.count a (st.input.map Job.id) =
      List.count a ((admittedAt st.t st.input).map Job.id) +
      List.count a ((inputAfter st.t st.input).map Job.id) := by
    conv_lhs => rw [← hsplit]
    rw [List.map_append, List.count_append]
  rw [hin] at hold
  rcases tickBody_cases st with ⟨hc, hA, heq⟩ | ⟨d, ds, hc, hA, heq⟩ |
    ⟨c, hc, h1, hA, heq⟩ | ⟨c, d, ds, hc, h1, hA, heq⟩ |
    ⟨c, d, ds, hc, h1, hA, heq⟩ | ⟨c, hc, h1, hA, heq⟩ <;> rw [heq] <;>
    simp only [liveJobs, List.map_append, List.count_append, Option.toList,
      List.map_cons, List.map_nil, List.count_cons, List.count_nil,
      beq_iff_eq, startOrResume_id] <;>
    rw [hc] at hold <;>
    simp only [Option.toList, List.map_cons, List.map_nil, List.count_cons,
      List.count_nil, beq_iff_eq] at hold
  · omega
  · have hpool := congrArg (fun l => List.count a (l.map Job.id)) hA
    simp only [List.map_append, List.count_append, List.map_cons,
      List.count_cons, beq_iff_eq] at hpool
    by_cases hda : d.id = a <;> simp only [hda, if_pos, if_neg, if_true, if_false] at * <;> omega
  · omega
  · have hpool := congrArg (fun l => List.count a (l.map Job.id)) hA
    simp only [List.map_append, List.count_append, List.map_cons,
      List.count_cons, beq_iff_eq] at hpool
    by_cases hda : d.id = a <;> by_cases hca : c.id = a <;>
      simp only [hda, hca, if_pos, if_neg, if_true, if_false] at * <;> omega
  · have hpool := congrArg (fun l => List.count a (l.map Job.id)) hA
    simp only [List.map_append, List.count_append, List.map_cons,
      List.count_cons, beq_iff_eq] at hpool
    by_cases hda : d.id = a <;> by_cases hca : c.id = a <;>
      simp only [hda, hca, if_pos, if_neg, if_true, if_false] at * <;> omega
  · by_cases hca : c.id = a <;>
      simp only [hca, if_pos, if_neg, if_true, if_false] at * <;> omega

lemma liveJobs_recordTick (st : DSt) : liveJobs (recordTick st) = liveJobs st := rfl

lemma mem_pool_cases {st : DSt} {j' : Job} (hj' : j' ∈ liveJobs st) :
    j' ∈ st.rq ++ admittedAt st.t st.input ∨ j' ∈ inputAfter st.t st.input ∨
      j' ∈ st.current.toList := by
  have hsplit : admittedAt st.t st.input ++ inputAfter st.t st.input = st.input :=
    List.takeWhile_append_dropWhile _ _
  unfold liveJobs at hj'
  rcases List.mem_append.mp hj' with h1 | h2
  · rcases List.mem_append.mp h1 with h3 | h4
    · rw [← hsplit] at h3
      rcases List.mem_append.mp h3 with h5 | h6
      · exact Or.inl (List.mem_append_right _ h5)
      · exact Or.inr (Or.inl h6)
    · exact Or.inl (List.mem_append_left _ h4)
  · exact Or.inr (Or.inr h2)

/-- The loop-head invariant is preserved by one recorded iteration. -/
lemma dinv_step (jobs : List Job) (st : DSt) (hI : DInv jobs st) :
    DInv jobs (recordTick (tickBody st)) := by
  obtain ⟨hpoolN, hRN, hpoolR, hcurdisj⟩ := liveNodup_parts st hI.liveNodup
  have hpoolinj := List.inj_on_of_nodup_map hpoolN
  have hids := live_body_ids st
  have hpoollive : ∀ x ∈ st.rq ++ admittedAt st.t st.input, x ∈ liveJobs st := by
    intro x hx
    rcases List.mem_append.mp hx with hr | ha
    · exact mem_live_of_rq hr
    · exact mem_live_of_input (List.Sublist.mem ha (List.takeWhile_sublist _))
  have htlen : (recordTick (tickBody st)).t = (recordTick (tickBody st)).gantt.length := by
    unfold recordTick
    dsimp only
    rw [tickBody_t, tickBody_gantt, List.length_append, List.length_singleton,
      hI.tlen]
  have hcurLast : ∀ c', (recordTick (tickBody st)).current = some c' →
      ∃ tp, (recordTick (tickBody st)).t = tp + 1 ∧
        (recordTick (tickBody st)).gantt.get? tp = some c'.id := by
    intro c' hc'
    have hc'' : (tickBody st).current = some c' := hc'
    refine ⟨st.t, ?_, ?_⟩
    · show (tickBody st).t + 1 = st.t + 1
      rw [tickBody_t]
    · have hg : (recordTick (tickBody st)).gantt = st.gantt ++ [c'.id] := by
        unfold recordTick
        dsimp only
        rw [hc'', tickBody_gantt]
      rw [hg, hI.tlen]
      exact List.get?_concat_length _ _
  have hnodupZ : ((liveJobs (recordTick (tickBody st))).map Job.id).Nodup := by
    rw [liveJobs_recordTick]
    exact liveNodup_body st hI.liveNodup
  have hposZ : ∀ j ∈ liveJobs (recordTick (tickBody st)), 1 ≤ j.id ∧ 1 ≤ j.remaining := by
    rw [liveJobs_recordTick]
    exact livePos_body st hI.livePos
  rcases tickBody_cases st with ⟨hc, hA, heq⟩ | ⟨d, ds, hc, hA, heq⟩ |
    ⟨c, hc, h1, hA, heq⟩ | ⟨c, d, ds, hc, h1, hA, heq⟩ |
    ⟨c, d, ds, hc, h1, hA, heq⟩ | ⟨c, hc, h1, hA, heq⟩
  · -- idle tick: entry -1, nothing else changes
    obtain ⟨hrq, hadm⟩ := List.append_eq_nil.mp hA
    have hZgantt : (recordTick (tickBody st)).gantt = st.gantt ++ [-1] := by
      rw [heq]
      rfl
    have hZcomp : (recordTick (tickBody st)).completions = st.completions := by
      rw [heq]
      rfl
    have hZcur : (recordTick (tickBody st)).current = none := by
      rw [heq]
      rfl
    have hZlive : liveJobs (recordTick (tickBody st)) =
        inputAfter st.t st.input := by
      rw [heq]
      show inputAfter st.t st.input ++ [] ++ [] = _
      simp
    have hZt : (recordTick (tickBody st)).t = st.t + 1 := by
      rw [heq]
      rfl
    refine ⟨htlen, hcurLast, hnodupZ, hposZ, ?_, ?_⟩
    · intro j hj
      rcases hI.account j hj with ⟨j', hmem, hid, hcount⟩ | ⟨hmem, hcount, hlive⟩
      · left
        have hj'R : j' ∈ inputAfter st.t st.input := by
          rcases mem_pool_cases hmem with hp | hp | hp
          · rw [hA] at hp
            exact absurd hp (List.not_mem_nil _)
          · exact hp
          · rw [hc] at hp
            exact absurd hp (List.not_mem_nil _)
        refine ⟨j', ?_, hid, ?_⟩
        · rw [hZlive]
          exact hj'R
        · have hne : (-1 : Int) ≠ j.id := by
            have := (hI.livePos j' hmem).1
            omega
          rw [hZgantt, count_append_ne _ hne, hZcur]
          have hb1 : ¬ st.current = some j' := by
            rw [hc]
            exact fun hcontra => Option.noConfusion hcontra
          have hb2 : ¬ (none : Option Job) = some j' :=
            fun hcontra => Option.noConfusion hcontra
          rw [if_neg hb2]
          rw [if_neg hb1] at hcount
          exact hcount
      · right
        have hne : (-1 : Int) ≠ j.id := by
          obtain ⟨p, hp, hpe⟩ := List.mem_map.mp hmem
          have := (hI.comps p hp).2.2.2.2.2
          omega
        refine ⟨by rw [hZcomp]; exact hmem, ?_, ?_⟩
        · rw [hZgantt, count_append_ne _ hne]
          exact hcount
        · intro j'' hj''
          rw [hZlive] at hj''
          have : j'' ∈ liveJobs (tickBody st) := by
            rw [heq]
            show j'' ∈ inputAfter st.t st.input ++ [] ++ []
            simp only [List.append_nil]
            exact hj''
          obtain ⟨j0, hj0, hj0e⟩ := hids j'' this
          rw [← hj0e]
          exact hlive j0 hj0
    · intro p hp
      rw [hZcomp] at hp
      have hcp := comps_preserved jobs st hI (liveJobs (tickBody st)) (-1)
        (Or.inl rfl) hids p hp
      rw [hZt, hZgantt]
      refine ⟨hcp.1, hcp.2.1, hcp.2.2.1, hcp.2.2.2.1, ?_, hcp.2.2.2.2.2⟩
      intro j' hj'
      refine hcp.2.2.2.2.1 j' ?_
      rw [← liveJobs_recordTick]
      exact hj'
  · -- dispatch-only: an idle slot is filled from the pool head
    have hdpool : d ∈ st.rq ++ admittedAt st.t st.input := by
      rw [hA]
      exact List.mem_cons_self d ds
    have hZgantt : (recordTick (tickBody st)).gantt = st.gantt ++ [d.id] := by
      rw [heq]
      show st.gantt ++ [(startOrResume d).id] = _
      rw [startOrResume_id]
    have hZcomp : (recordTick (tickBody st)).completions = st.completions := by
      rw [heq]
      rfl
    have hZcur : (recordTick (tickBody st)).current = some (startOrResume d) := by
      rw [heq]
      rfl
    have hZlive : liveJobs (recordTick (tickBody st)) =
        inputAfter st.t st.input ++ ds ++ [startOrResume d] := by
      rw [heq]
      rfl
    have hZt : (recordTick (tickBody st)).t = st.t + 1 := by
      rw [heq]
      rfl
    have hdnotds : d.id ∉ ds.map Job.id := by
      have h2 := hpoolN
      rw [hA] at h2
      exact (List.nodup_cons.mp (by simpa using h2)).1
    refine ⟨htlen, hcurLast, hnodupZ, hposZ, ?_, ?_⟩
    · intro j hj
      rcases hI.account j hj with ⟨j', hmem, hid, hcount⟩ | ⟨hmem, hcount, hlive⟩
      · have hb0 : ¬ st.current = some j' := by
          rw [hc]
          exact fun hcon => Option.noConfusion hcon
        rw [if_neg hb0] at hcount
        rcases mem_pool_cases hmem with hp | hp | hp
        · rw [hA] at hp
          rcases List.mem_cons.mp hp with hj'd | hj'ds
          · left
            rw [hj'd] at hid hcount
            refine ⟨startOrResume d, ?_, ?_, ?_⟩
            · rw [hZlive]
              exact List.mem_append_right _ (List.mem_singleton_self _)
            · rw [startOrResume_id]
              exact hid
            · rw [hZgantt, count_append_entry, if_pos hid, hZcur, if_pos rfl,
                startOrResume_remaining]
              push_cast
              omega
          · left
            have hne : d.id ≠ j'.id := fun hcon =>
              hdnotds (hcon ▸ List.mem_map_of_mem Job.id hj'ds)
            have hne2 : d.id ≠ j.id := by
              rw [← hid]
              exact hne
            refine ⟨j', ?_, hid, ?_⟩
            · rw [hZlive]
              exact List.mem_append_left _ (List.mem_append_right _ hj'ds)
            · rw [hZgantt, count_append_ne _ hne2, hZcur]
              rw [if_neg (fun hcon =>
                hne (by rw [← Option.some.inj hcon, startOrResume_id]))]
              exact hcount
        · left
          have hne : d.id ≠ j'.id := hpoolR d hdpool j' hp
          have hne2 : d.id ≠ j.id := by
            rw [← hid]
            exact hne
          refine ⟨j', ?_, hid, ?_⟩
          · rw [hZlive]
            exact List.mem_append_left _ (List.mem_append_left _ hp)
          · rw [hZgantt, count_append_ne _ hne2, hZcur]
            rw [if_neg (fun hcon =>
              hne (by rw [← Option.some.inj hcon, startOrResume_id]))]
            exact hcount
        · rw [hc] at hp
          exact absurd hp (List.not_mem_nil _)
      · right
        have hne : d.id ≠ j.id := hlive d (hpoollive d hdpool)
        refine ⟨by rw [hZcomp]; exact hmem, ?_, ?_⟩
        · rw [hZgantt, count_append_ne _ hne]
          exact hcount
        · intro j'' hj''
          obtain ⟨j0, hj0, hj0e⟩ := hids j''
            (by rw [← liveJobs_recordTick]; exact hj'')
          rw [← hj0e]
          exact hlive j0 hj0
    · intro p hp
      rw [hZcomp] at hp
      have hcp := comps_preserved jobs st hI (liveJobs (tickBody st)) d.id
        (Or.inr ⟨d, hpoollive d hdpool, rfl⟩) hids p hp
      rw [hZt, hZgantt]
      refine ⟨hcp.1, hcp.2.1, hcp.2.2.1, hcp.2.2.2.1, ?_, hcp.2.2.2.2.2⟩
      intro j' hj'
      exact hcp.2.2.2.2.1 j' (by rw [← liveJobs_recordTick]; exact hj')
  · -- completion with empty pool: job finishes, slot stays empty
    obtain ⟨hrq, hadm⟩ := List.append_eq_nil.mp hA
    have hclive : c ∈ liveJobs st := mem_live_of_current hc
    have hcpos := hI.livePos c hclive
    have hrem1 : c.remaining = 1 := by
      have h2 := hcpos.2
      omega
    have hZgantt : (recordTick (tickBody st)).gantt = st.gantt ++ [-1] := by
      rw [heq]
      rfl
    have hZcomp : (recordTick (tickBody st)).completions =
        st.completions ++ [(c.id, st.t)] := by
      rw [heq]
      rfl
    have hZcur : (recordTick (tickBody st)).current = none := by
      rw [heq]
      rfl
    have hZlive : liveJobs (recordTick (tickBody st)) = inputAfter st.t st.input := by
      rw [heq]
      show inputAfter st.t st.input ++ [] ++ [] = _
      simp
    have hZt : (recordTick (tickBody st)).t = st.t + 1 := by
      rw [heq]
      rfl
    have hbodylive : liveJobs (tickBody st) = inputAfter st.t st.input := by
      rw [heq]
      show inputAfter st.t st.input ++ [] ++ [] = _
      simp
    refine ⟨htlen, hcurLast, hnodupZ, hposZ, ?_, ?_⟩
    · intro j hj
      rcases hI.account j hj with ⟨j', hmem, hid, hcount⟩ | ⟨hmem, hcount, hlive⟩
      · rcases mem_pool_cases hmem with hp | hp | hp
        · rw [hA] at hp
          exact absurd hp (List.not_mem_nil _)
        · left
          have hne : (-1 : Int) ≠ j.id := by
            have h2 := (hI.livePos j' hmem).1
            omega
          have hcj' : ¬ st.current = some j' := by
            rw [hc]
            intro hcon
            have h3 : c = j' := Option.some.inj hcon
            exact (hcurdisj c hc).2 j' hp (by rw [← h3])
          rw [if_neg hcj'] at hcount
          refine ⟨j', by rw [hZlive]; exact hp, hid, ?_⟩
          rw [hZgantt, count_append_ne _ hne, hZcur]
          rw [if_neg (fun hcon => Option.noConfusion hcon)]
          exact hcount
        · rw [hc] at hp
          have hj'c : j' = c := by
            simpa [Option.toList] using hp
          right
          rw [hj'c] at hid hcount
          rw [if_pos hc] at hcount
          have hne : (-1 : Int) ≠ j.id := by
            have h2 := hcpos.1
            omega
          refine ⟨?_, ?_, ?_⟩
          · rw [hZcomp]
            refine List.mem_map.mpr ⟨(c.id, st.t),
              List.mem_append_right _ (List.mem_singleton_self _), hid⟩
          · rw [hZgantt, count_append_ne _ hne, hcount, hrem1]
            ring
          · intro j'' hj''
            rw [hZlive] at hj''
            rw [← hid]
            exact (hcurdisj c hc).2 j'' hj''
      · right
        have hne : (-1 : Int) ≠ j.id := by
          obtain ⟨p, hp, hpe⟩ := List.mem_map.mp hmem
          have h2 := (hI.comps p hp).2.2.2.2.2
          omega
        refine ⟨?_, ?_, ?_⟩
        · rw [hZcomp, List.map_append]
          exact List.mem_append_left _ hmem
        · rw [hZgantt, count_append_ne _ hne]
          exact hcount
        · intro j'' hj''
          obtain ⟨j0, hj0, hj0e⟩ := hids j''
            (by rw [← liveJobs_recordTick]; exact hj'')
          rw [← hj0e]
          exact hlive j0 hj0
    · intro p hp
      rw [hZcomp] at hp
      rcases List.mem_append.mp hp with hold | hnew
      · have hcp := comps_preserved jobs st hI (liveJobs (tickBody st)) (-1)
          (Or.inl rfl) hids p hold
        rw [hZt, hZgantt]
        refine ⟨hcp.1, hcp.2.1, hcp.2.2.1, hcp.2.2.2.1, ?_, hcp.2.2.2.2.2⟩
        intro j' hj'
        exact hcp.2.2.2.2.1 j' (by rw [← liveJobs_recordTick]; exact hj')
      · have hpe : p = (c.id, st.t) := List.mem_singleton.mp hnew
        have hcnew := comp_new jobs st c hI hc (liveJobs (tickBody st)) (-1)
          (by have h2 := hcpos.1; omega)
          (by
            intro j'' hj''
            rw [hbodylive] at hj''
            exact (hcurdisj c hc).2 j'' hj'')
        rw [hZt, hZgantt, hpe]
        refine ⟨hcnew.1, hcnew.2.1, hcnew.2.2.1, hcnew.2.2.2.1, ?_, hcnew.2.2.2.2.2⟩
        intro j' hj'
        exact hcnew.2.2.2.2.1 j' (by rw [← liveJobs_recordTick]; exact hj')
  · -- completion with a successor dispatched in the same body
    have hdpool : d ∈ st.rq ++ admittedAt st.t st.input := by
      rw [hA]
      exact List.mem_cons_self d ds
    have hclive : c ∈ liveJobs st := mem_live_of_current hc
    have hcpos := hI.livePos c hclive
    have hrem1 : c.remaining = 1 := by
      have h2 := hcpos.2
      omega
    have hdc : d.id ≠ c.id := (hcurdisj c hc).1 d hdpool
    have hdnotds : d.id ∉ ds.map Job.id := by
      have h2 := hpoolN
      rw [hA] at h2
      exact (List.nodup_cons.mp (by simpa using h2)).1
    have hZgantt : (recordTick (tickBody st)).gantt = st.gantt ++ [d.id] := by
      rw [heq]
      show st.gantt ++ [(startOrResume d).id] = _
      rw [startOrResume_id]
    have hZcomp : (recordTick (tickBody st)).completions =
        st.completions ++ [(c.id, st.t)] := by
      rw [heq]
      rfl
    have hZcur : (recordTick (tickBody st)).current = some (startOrResume d) := by
      rw [heq]
      rfl
    have hZlive : liveJobs (recordTick (tickBody st)) =
        inputAfter st.t st.input ++ ds ++ [startOrResume d] := by
      rw [heq]
      rfl
    have hZt : (recordTick (tickBody st)).t = st.t + 1 := by
      rw [heq]
      rfl
    have hbodylive : liveJobs (tickBody st) =
        inputAfter st.t st.input ++ ds ++ [startOrResume d] := by
      rw [heq]
      rfl
    have hnotc : ∀ j'' ∈ liveJobs (tickBody st), j''.id ≠ c.id := by
      intro j'' hj''
      rw [hbodylive] at hj''
      rcases List.mem_append.mp hj'' with h2 | h2
      · rcases List.mem_append.mp h2 with h3 | h3
        · exact (hcurdisj c hc).2 j'' h3
        · exact (hcurdisj c hc).1 j'' (hA ▸ List.mem_cons_of_mem d h3)
      · rw [List.mem_singleton.mp h2, startOrResume_id]
        exact hdc
    refine ⟨htlen, hcurLast, hnodupZ, hposZ, ?_, ?_⟩
    · intro j hj
      rcases hI.account j hj with ⟨j', hmem, hid, hcount⟩ | ⟨hmem, hcount, hlive⟩
      · rcases mem_pool_cases hmem with hp | hp | hp
        · rw [hA] at hp
          rcases List.mem_cons.mp hp with hj'd | hj'ds
          · left
            rw [hj'd] at hid hcount
            have hcj' : ¬ st.current = some d := by
              rw [hc]
              intro hcon
              exact hdc (by rw [Option.some.inj hcon])
            rw [if_neg hcj'] at hcount
            refine ⟨startOrResume d, ?_, ?_, ?_⟩
            · rw [hZlive]
              exact List.mem_append_right _ (List.mem_singleton_self _)
            · rw [startOrResume_id]
              exact hid
            · rw [hZgantt, count_append_entry, if_pos hid, hZcur, if_pos rfl,
                startOrResume_remaining]
              push_cast
              omega
          · left
            have hne : d.id ≠ j'.id := fun hcon =>
              hdnotds (hcon ▸ List.mem_map_of_mem Job.id hj'ds)
            have hne2 : d.id ≠ j.id := by
              rw [← hid]
              exact hne
            have hcj' : ¬ st.current = some j' := by
              rw [hc]
              intro hcon
              have h3 : c = j' := Option.some.inj hcon
              exact (hcurdisj c hc).1 j' (hA ▸ List.mem_cons_of_mem d hj'ds)
                (by rw [← h3])
            rw [if_neg hcj'] at hcount
            refine ⟨j', ?_, hid, ?_⟩
            · rw [hZlive]
              exact List.mem_append_left _ (List.mem_append_right _ hj'ds)
            · rw [hZgantt, count_append_ne _ hne2, hZcur]
              rw [if_neg (fun hcon =>
                hne (by rw [← Option.some.inj hcon, startOrResume_id]))]
              exact hcount
        · left
          have hne : d.id ≠ j'.id := hpoolR d hdpool j' hp
          have hne2 : d.id ≠ j.id := by
            rw [← hid]
            exact hne
          have hcj' : ¬ st.current = some j' := by
            rw [hc]
            intro hcon
            have h3 : c = j' := Option.some.inj hcon
            exact (hcurdisj c hc).2 j' hp (by rw [← h3])
          rw [if_neg hcj'] at hcount
          refine ⟨j', ?_, hid, ?_⟩
          · rw [hZlive]
            exact List.mem_append_left _ (List.mem_append_left _ hp)
          · rw [hZgantt, count_append_ne _ hne2, hZcur]
            rw [if_neg (fun hcon =>
              hne (by rw [← Option.some.inj hcon, startOrResume_id]))]
            exact hcount
        · rw [hc] at hp
          have hj'c : j' = c := by
            simpa [Option.toList] using hp
          right
          rw [hj'c] at hid hcount
          rw [if_pos hc] at hcount
          have hne : d.id ≠ j.id := by
            rw [← hid]
            exact hdc
          refine ⟨?_, ?_, ?_⟩
          · rw [hZcomp]
            refine List.mem_map.mpr ⟨(c.id, st.t),
              List.mem_append_right _ (List.mem_singleton_self _), hid⟩
          · rw [hZgantt, count_append_ne _ hne, hcount, hrem1]
            ring
          · intro j'' hj''
            rw [← hid]
            exact hnotc j'' (by rw [← liveJobs_recordTick]; exact hj'')
      · right
        have hne : d.id ≠ j.id := hlive d (hpoollive d hdpool)
        refine ⟨?_, ?_, ?_⟩
        · rw [hZcomp, List.map_append]
          exact List.mem_append_left _ hmem
        · rw [hZgantt, count_append_ne _ hne]
          exact hcount
        · intro j'' hj''
          obtain ⟨j0, hj0, hj0e⟩ := hids j''
            (by rw [← liveJobs_recordTick]; exact hj'')
          rw [← hj0e]
          exact hlive j0 hj0
    · intro p hp
      rw [hZcomp] at hp
      rcases List.mem_append.mp hp with hold | hnew
      · have hcp := comps_preserved jobs st hI (liveJobs (tickBody st)) d.id
          (Or.inr ⟨d, hpoollive d hdpool, rfl⟩) hids p hold
        rw [hZt, hZgantt]
        refine ⟨hcp.1, hcp.2.1, hcp.2.2.1, hcp.2.2.2.1, ?_, hcp.2.2.2.2.2⟩
        intro j' hj'
        exact hcp.2.2.2.2.1 j' (by rw [← liveJobs_recordTick]; exact hj')
      · have hpe : p = (c.id, st.t) := List.mem_singleton.mp hnew
        have hcnew := comp_new jobs st c hI hc (liveJobs (tickBody st)) d.id
          hdc hnotc
        rw [hZt, hZgantt, hpe]
        refine ⟨hcnew.1, hcnew.2.1, hcnew.2.2.1, hcnew.2.2.2.1, ?_, hcnew.2.2.2.2.2⟩
        intro j' hj'
        exact hcnew.2.2.2.2.1 j' (by rw [← liveJobs_recordTick]; exact hj')
  · -- preemption: the charged job re-enters the queue, the head runs
    have hdpool : d ∈ st.rq ++ admittedAt st.t st.input := by
      rw [hA]
      exact List.mem_cons_self d ds
    have hclive : c ∈ liveJobs st := mem_live_of_current hc
    have hdc : d.id ≠ c.id := (hcurdisj c hc).1 d hdpool
    have hdnotds : d.id ∉ ds.map Job.id := by
      have h2 := hpoolN
      rw [hA] at h2
      exact (List.nodup_cons.mp (by simpa using h2)).1
    have hZgantt : (recordTick (tickBody st)).gantt = st.gantt ++ [d.id] := by
      rw [heq]
      show st.gantt ++ [(startOrResume d).id] = _
      rw [startOrResume_id]
    have hZcomp : (recordTick (tickBody st)).completions = st.completions := by
      rw [heq]
      rfl
    have hZcur : (recordTick (tickBody st)).current = some (startOrResume d) := by
      rw [heq]
      rfl
    have hZlive : liveJobs (recordTick (tickBody st)) =
        inputAfter st.t st.input ++ (ds ++ [{ c with remaining := c.remaining - 1, state := JState.suspended }]) ++ [startOrResume d] := by
      rw [heq]
      rfl
    have hZt : (recordTick (tickBody st)).t = st.t + 1 := by
      rw [heq]
      rfl
    refine ⟨htlen, hcurLast, hnodupZ, hposZ, ?_, ?_⟩
    · intro j hj
      rcases hI.account j hj with ⟨j', hmem, hid, hcount⟩ | ⟨hmem, hcount, hlive⟩
      · rcases mem_pool_cases hmem with hp | hp | hp
        · rw [hA] at hp
          rcases List.mem_cons.mp hp with hj'd | hj'ds
          · left
            rw [hj'd] at hid hcount
            have hcj' : ¬ st.current = some d := by
              rw [hc]
              intro hcon
              exact hdc (by rw [Option.some.inj hcon])
            rw [if_neg hcj'] at hcount
            refine ⟨startOrResume d, ?_, ?_, ?_⟩
            · rw [hZlive]
              exact List.mem_append_right _ (List.mem_singleton_self _)
            · rw [startOrResume_id]
              exact hid
            · rw [hZgantt, count_append_entry, if_pos hid, hZcur, if_pos rfl,
                startOrResume_remaining]
              push_cast
              omega
          · left
            have hne : d.id ≠ j'.id := fun hcon =>
              hdnotds (hcon ▸ List.mem_map_of_mem Job.id hj'ds)
            have hne2 : d.id ≠ j.id := by
              rw [← hid]
              exact hne
            have hcj' : ¬ st.current = some j' := by
              rw [hc]
              intro hcon
              have h3 : c = j' := Option.some.inj hcon
              exact (hcurdisj c hc).1 j' (hA ▸ List.mem_cons_of_mem d hj'ds)
                (by rw [← h3])
            rw [if_neg hcj'] at hcount
            refine ⟨j', ?_, hid, ?_⟩
            · rw [hZlive]
              exact List.mem_append_left _
                (List.mem_append_right _ (List.mem_append_left _ hj'ds))
            · rw [hZgantt, count_append_ne _ hne2, hZcur]
              rw [if_neg (fun hcon =>
                hne (by rw [← Option.some.inj hcon, startOrResume_id]))]
              exact hcount
        · left
          have hne : d.id ≠ j'.id := hpoolR d hdpool j' hp
          have hne2 : d.id ≠ j.id := by
            rw [← hid]
            exact hne
          have hcj' : ¬ st.current = some j' := by
            rw [hc]
            intro hcon
            have h3 : c = j' := Option.some.inj hcon
            exact (hcurdisj c hc).2 j' hp (by rw [← h3])
          rw [if_neg hcj'] at hcount
          refine ⟨j', ?_, hid, ?_⟩
          · rw [hZlive]
            exact List.mem_append_left _ (List.mem_append_left _ hp)
          · rw [hZgantt, count_append_ne _ hne2, hZcur]
            rw [if_neg (fun hcon =>
              hne (by rw [← Option.some.inj hcon, startOrResume_id]))]
            exact hcount
        · rw [hc] at hp
          have hj'c : j' = c := by
            simpa [Option.toList] using hp
          left
          rw [hj'c] at hid hcount
          rw [if_pos hc] at hcount
          have hne : d.id ≠ j.id := by
            rw [← hid]
            exact hdc
          refine ⟨{ c with remaining := c.remaining - 1, state := JState.suspended },
            ?_, hid, ?_⟩
          · rw [hZlive]
            exact List.mem_append_left _
              (List.mem_append_right _ (List.mem_append_right _
                (List.mem_singleton_self _)))
          · rw [hZgantt, count_append_ne _ hne, hZcur]
            rw [if_neg (fun hcon => hdc (by
              have h3 := Option.some.inj hcon
              have h4 := congrArg Job.id h3
              rw [startOrResume_id] at h4
              exact h4))]
            show (st.gantt.count j.id : Int) = j.total_cpu - (c.remaining - 1) + 0
            rw [hcount]
            ring
      · right
        have hne : d.id ≠ j.id := hlive d (hpoollive d hdpool)
        refine ⟨by rw [hZcomp]; exact hmem, ?_, ?_⟩
        · rw [hZgantt, count_append_ne _ hne]
          exact hcount
        · intro j'' hj''
          obtain ⟨j0, hj0, hj0e⟩ := hids j''
            (by rw [← liveJobs_recordTick]; exact hj'')
          rw [← hj0e]
          exact hlive j0 hj0
    · intro p hp
      rw [hZcomp] at hp
      have hcp := comps_preserved jobs st hI (liveJobs (tickBody st)) d.id
        (Or.inr ⟨d, hpoollive d hdpool, rfl⟩) hids p hp
      rw [hZt, hZgantt]
      refine ⟨hcp.1, hcp.2.1, hcp.2.2.1, hcp.2.2.2.1, ?_, hcp.2.2.2.2.2⟩
      intro j' hj'
      exact hcp.2.2.2.2.1 j' (by rw [← liveJobs_recordTick]; exact hj')
  · -- continuation: the running job keeps the CPU
    obtain ⟨hrq, hadm⟩ := List.append_eq_nil.mp hA
    have hclive : c ∈ liveJobs st := mem_live_of_current hc
    have hZgantt : (recordTick (tickBody st)).gantt = st.gantt ++ [c.id] := by
      rw [heq]
      rfl
    have hZcomp : (recordTick (tickBody st)).completions = st.completions := by
      rw [heq]
      rfl
    have hZcur : (recordTick (tickBody st)).current =
        some { c with remaining := c.remaining - 1 } := by
      rw [heq]
      rfl
    have hZlive : liveJobs (recordTick (tickBody st)) =
        inputAfter st.t st.input ++ [] ++ [{ c with remaining := c.remaining - 1 }] := by
      rw [heq]
      rfl
    have hZt : (recordTick (tickBody st)).t = st.t + 1 := by
      rw [heq]
      rfl
    refine ⟨htlen, hcurLast, hnodupZ, hposZ, ?_, ?_⟩
    · intro j hj
      rcases hI.account j hj with ⟨j', hmem, hid, hcount⟩ | ⟨hmem, hcount, hlive⟩
      · rcases mem_pool_cases hmem with hp | hp | hp
        · rw [hA] at hp
          exact absurd hp (List.not_mem_nil _)
        · left
          have hne : c.id ≠ j'.id := fun hcon => (hcurdisj c hc).2 j' hp hcon.symm
          have hne2 : c.id ≠ j.id := by
            rw [← hid]
            exact hne
          have hcj' : ¬ st.current = some j' := by
            rw [hc]
            intro hcon
            exact hne (by rw [Option.some.inj hcon])
          rw [if_neg hcj'] at hcount
          refine ⟨j', ?_, hid, ?_⟩
          · rw [hZlive]
            exact List.mem_append_left _ (by
              rw [List.append_nil]
              exact hp)
          · rw [hZgantt, count_append_ne _ hne2, hZcur]
            rw [if_neg (fun hcon => hne (by
              have h3 := Option.some.inj hcon
              have h4 := congrArg Job.id h3
              exact h4))]
            exact hcount
        · rw [hc] at hp
          have hj'c : j' = c := by
            simpa [Option.toList] using hp
          left
          rw [hj'c] at hid hcount
          rw [if_pos hc] at hcount
          refine ⟨{ c with remaining := c.remaining - 1 }, ?_, hid, ?_⟩
          · rw [hZlive]
            exact List.mem_append_right _ (List.mem_singleton_self _)
          · rw [hZgantt, count_append_entry, if_pos hid, hZcur, if_pos rfl]
            show ((st.gantt.count j.id + 1 : Nat) : Int) =
              j.total_cpu - (c.remaining - 1) + 1
            push_cast
            omega
      · right
        have hne : c.id ≠ j.id := hlive c hclive
        refine ⟨by rw [hZcomp]; exact hmem, ?_, ?_⟩
        · rw [hZgantt, count_append_ne _ hne]
          exact hcount
        · intro j'' hj''
          obtain ⟨j0, hj0, hj0e⟩ := hids j''
            (by rw [← liveJobs_recordTick]; exact hj'')
          rw [← hj0e]
          exact hlive j0 hj0
    · intro p hp
      rw [hZcomp] at hp
      have hcp := comps_preserved jobs st hI (liveJobs (tickBody st)) c.id
        (Or.inr ⟨c, hclive, rfl⟩) hids p hp
      rw [hZt, hZgantt]
      refine ⟨hcp.1, hcp.2.1, hcp.2.2.1, hcp.2.2.2.1, ?_, hcp.2.2.2.2.2⟩
      intro j' hj'
      exact hcp.2.2.2.2.1 j' (by rw [← liveJobs_recordTick]; exact hj')

/-- The invariant holds on entry to the loop. -/
lemma dinv_init (jobs : List Job) (hnd : (jobs.map Job.id).Nodup)
    (hini : ∀ j ∈ jobs, 1 ≤ j.id ∧ 1 ≤ j.total_cpu ∧ j.remaining = j.total_cpu) :
    DInv jobs (initSt jobs) := by
  have hlive : liveJobs (initSt jobs) = jobs := by
    show jobs ++ [] ++ [] = jobs
    simp
  refine ⟨rfl, ?_, ?_, ?_, ?_, ?_⟩
  · intro c hc
    exact Option.noConfusion hc
  · rw [hlive]
    exact hnd
  · rw [hlive]
    intro j hj
    have h2 := hini j hj
    exact ⟨h2.1, by omega⟩
  · intro j hj
    left
    refine ⟨j, by rw [hlive]; exact hj, rfl, ?_⟩
    have h2 := (hini j hj).2.2
    rw [if_neg (fun hcon => Option.noConfusion hcon)]
    show ((List.count j.id ([] : List Int) : Nat) : Int) = j.total_cpu - j.remaining + 0
    rw [List.count_nil]
    omega
  · intro p hp
    exact absurd hp (List.not_mem_nil _)

/-- A drained state satisfying the invariant yields the final facts. -/
lemma dinv_final (jobs : List Job) (st : DSt) (hI : DInv jobs st)
    (hdone : allDone st = true) : FinalFacts jobs st := by
  have h2 : (st.input = [] ∧ st.rq = []) ∧ st.current = none := by
    unfold allDone at hdone
    simpa [Bool.and_eq_true, List.isEmpty_iff, Option.isNone_iff_eq_none]
      using hdone
  have hlive : liveJobs st = [] := by
    unfold liveJobs
    rw [h2.1.1, h2.1.2, h2.2]
    rfl
  constructor
  · intro j hj
    rcases hI.account j hj with ⟨j', hmem, _, _⟩ | ⟨hmem, hcount, _⟩
    · rw [hlive] at hmem
      exact absurd hmem (List.not_mem_nil _)
    · exact ⟨hcount, hmem⟩
  · intro p hp
    obtain ⟨a1, _, a3, a4, _, _⟩ := hI.comps p hp
    exact ⟨a1, a3, a4⟩

/-- The in-loop break (everything drained right after the body) also
yields the final facts, for the un-recorded body state. -/
lemma dinv_break (jobs : List Job) (st : DSt) (hI : DInv jobs st)
    (hdone : allDone (tickBody st) = true) : FinalFacts jobs (tickBody st) := by
  have hsplit : admittedAt st.t st.input ++ inputAfter st.t st.input = st.input :=
    List.takeWhile_append_dropWhile _ _
  rcases tickBody_cases st with ⟨hc, hA, heq⟩ | ⟨d, ds, hc, hA, heq⟩ |
    ⟨c, hc, h1, hA, heq⟩ | ⟨c, d, ds, hc, h1, hA, heq⟩ |
    ⟨c, d, ds, hc, h1, hA, heq⟩ | ⟨c, hc, h1, hA, heq⟩
  · obtain ⟨hrq, hadm⟩ := List.append_eq_nil.mp hA
    have hR : inputAfter st.t st.input = [] := by
      rw [heq] at hdone
      unfold allDone at hdone
      simpa [Bool.and_eq_true, List.isEmpty_iff] using hdone
    have hinput : st.input = [] := by
      rw [← hsplit, hadm, hR]
      rfl
    have hlive : liveJobs st = [] := by
      unfold liveJobs
      rw [hinput, hrq, hc]
      rfl
    have hYc : (tickBody st).completions = st.completions := by
      rw [heq]
    constructor
    · intro j hj
      rcases hI.account j hj with ⟨j', hmem, _, _⟩ | ⟨hmem, hcount, _⟩
      · rw [hlive] at hmem
        exact absurd hmem (List.not_mem_nil _)
      · constructor
        · rw [tickBody_gantt]
          exact hcount
        · rw [hYc]
          exact hmem
    · intro p hp
      rw [hYc] at hp
      obtain ⟨a1, _, a3, a4, _, _⟩ := hI.comps p hp
      rw [tickBody_gantt]
      exact ⟨a1, a3, a4⟩
  · exfalso
    rw [heq] at hdone
    unfold allDone at hdone
    simp at hdone
  · obtain ⟨hrq, hadm⟩ := List.append_eq_nil.mp hA
    have hR : inputAfter st.t st.input = [] := by
      rw [heq] at hdone
      unfold allDone at hdone
      simpa [Bool.and_eq_true, List.isEmpty_iff] using hdone
    have hinput : st.input = [] := by
      rw [← hsplit, hadm, hR]
      rfl
    have hlive : liveJobs st = [c] := by
      unfold liveJobs
      rw [hinput, hrq, hc]
      rfl
    have hclive : c ∈ liveJobs st := by
      rw [hlive]
      exact List.mem_singleton_self _
    have hcpos := hI.livePos c hclive
    have hrem1 : c.remaining = 1 := by
      have h2 := hcpos.2
      omega
    have hYc : (tickBody st).completions = st.completions ++ [(c.id, st.t)] := by
      rw [heq]
    constructor
    · intro j hj
      rcases hI.account j hj with ⟨j', hmem, hid, hcount⟩ | ⟨hmem, hcount, _⟩
      · rw [hlive] at hmem
        have hj'c : j' = c := List.mem_singleton.mp hmem
        rw [hj'c] at hid hcount
        rw [if_pos hc] at hcount
        constructor
        · rw [tickBody_gantt, hcount, hrem1]
          ring
        · rw [hYc]
          refine List.mem_map.mpr ⟨(c.id, st.t),
            List.mem_append_right _ (List.mem_singleton_self _), hid⟩
      · constructor
        · rw [tickBody_gantt]
          exact hcount
        · rw [hYc, List.map_append]
          exact List.mem_append_left _ hmem
    · intro p hp
      rw [hYc] at hp
      rcases List.mem_append.mp hp with hold | hnew
      · obtain ⟨a1, _, a3, a4, _, _⟩ := hI.comps p hold
        rw [tickBody_gantt]
        exact ⟨a1, a3, a4⟩
      · have hpe : p = (c.id, st.t) := List.mem_singleton.mp hnew
        obtain ⟨tp, htp, hget⟩ := hI.curLast c hc
        rw [tickBody_gantt, hpe]
        refine ⟨by omega, ?_, ?_⟩
        · rw [show st.t - 1 = tp from by omega]
          exact hget
        · intro k hk
          have hnone : st.gantt.get? k = none :=
            List.get?_eq_none.mpr (by rw [← hI.tlen]; omega)
          rw [hnone]
          exact fun hcon => Option.noConfusion hcon
  · exfalso
    rw [heq] at hdone
    unfold allDone at hdone
    simp at hdone
  · exfalso
    rw [heq] at hdone
    unfold allDone at hdone
    simp at hdone
  · exfalso
    rw [heq] at hdone
    unfold allDone at hdone
    simp at hdone

/-- Runs started in the invariant end with the final accounting facts. -/
lemma dinv_run (jobs : List Job) : ∀ (fuel : Nat) (st st' : DSt),
    DInv jobs st → loopRun fuel st = some st' → FinalFacts jobs st' := by
  intro fuel
  induction fuel with
  | zero => intro st st' _ h; simp [loopRun] at h
  | succ f ih =>
    intro st st' hI h
    rw [loopRun] at h
    by_cases h0 : allDone st
    · rw [if_pos h0] at h
      cases h
      exact dinv_final jobs st hI h0
    · rw [if_neg h0] at h
      by_cases h1 : allDone (tickBody st)
      · rw [if_pos h1] at h
        cases h
        exact dinv_break jobs st hI h1
      · rw [if_neg h1] at h
        exact ih _ _ (dinv_step jobs st hI) h

/-- **C3.** For every job the dispatcher completes (distinct positive
ids, positive service, `remaining` initialized to the service time),
the recorded completion tick `tc` is one past the index of that job's
last Trace entry: the Trace holds the job's id at index `tc - 1` and at
no index ≥ `tc`. -/
theorem completion_tick_one_past_last_entry (jobs : List Job)
    (hnd : (jobs.map Job.id).Nodup)
    (hini : ∀ j ∈ jobs, 1 ≤ j.id ∧ 1 ≤ j.total_cpu ∧ j.remaining = j.total_cpu)
    (fuel : Nat) (final : DSt)
    (hrun : loopRun fuel (initSt jobs) = some final) :
    ∀ p ∈ final.completions, 1 ≤ p.2 ∧
      final.gantt.get? (p.2 - 1) = some p.1 ∧
      ∀ k, p.2 ≤ k → final.gantt.get? k ≠ some p.1 :=
  (dinv_run jobs fuel (initSt jobs) final (dinv_init jobs hnd hini) hrun).2

/-- Witness for C3, on the §8 scenario: Job2's completion tick 4 is one
past its last Trace entry, which sits at index 3. -/
theorem completion_tick_one_past_last_entry_witness :
    1 ≤ ((2, 4) : Int × Nat).2 ∧
      scenarioFinal.gantt.get? (((2, 4) : Int × Nat).2 - 1) =
        some ((2, 4) : Int × Nat).1 := by
  have h := completion_tick_one_past_last_entry scenarioJobs (by decide) (by decide)
    30 scenarioFinal (by decide) (2, 4) (by decide)
  exact ⟨h.1, h.2.1⟩

/-- **C4, counterexample.** The parenthetical invariant "at every
reachable state, remaining + Trace-entry count = total" fails in the
code: run one job of service 2; at the loop head of tick 1 (a reachable
state) the job is current with remaining still 2 (the charge for tick
0's Trace entry is applied only at the start of the next iteration)
while the Trace already holds one entry for it, so remaining + count =
3 ≠ 2. -/
theorem midrun_remaining_plus_count_exceeds_total :
    oneJobAtTick1.current = some { id := 1, arrival := 0, total_cpu := 2,
                                   remaining := 2, state := JState.running }
    ∧ oneJobAtTick1.gantt = [1]
    ∧ ((2 : Int) + (oneJobAtTick1.gantt.count 1 : Int) ≠ 2) := by
  decide

/-- **C4, amended.** For every job in a run that terminates with all
jobs completed (distinct positive ids, positive service, `remaining`
initialized to the service time), the number of Trace entries carrying
that job's id equals the job's total service time; the correct
intermediate invariant is lagged: count = total − remaining + 1 while
the job is assigned (its latest entry not yet charged), and
count = total − remaining otherwise. -/
theorem conservation_of_service_time (jobs : List Job)
    (hnd : (jobs.map Job.id).Nodup)
    (hini : ∀ j ∈ jobs, 1 ≤ j.id ∧ 1 ≤ j.total_cpu ∧ j.remaining = j.total_cpu)
    (fuel : Nat) (final : DSt)
    (hrun : loopRun fuel (initSt jobs) = some final) :
    ∀ j ∈ jobs, (final.gantt.count j.id : Int) = j.total_cpu :=
  fun j hj =>
    ((dinv_run jobs fuel (initSt jobs) final (dinv_init jobs hnd hini) hrun).1
      j hj).1

/-- Witness for the amended C4: in the §8 scenario Job1's id fills
exactly 3 = its service time Trace slots. -/
theorem conservation_of_service_time_witness :
    (scenarioFinal.gantt.count (mkJob 1 0 3).id : Int) = (mkJob 1 0 3).total_cpu :=
  conservation_of_service_time scenarioJobs (by decide) (by decide)
    30 scenarioFinal (by decide) (mkJob 1 0 3) (by decide)
